import Mathlib

/-!
Shallow embedding of the `sais-rs` suffix-array library (files
`src/sais.rs`, `src/radix_sort.rs`, `src/suffix_index.rs`).

Modelling conventions:
* The index type `I` is instantiated at `usize`, modelled as `Nat`;
  the sentinel `I::MAX` is the literal `USIZE_MAX = 2^64 - 1`.
  All arithmetic that the program performs on indices stays far below
  `2^64` on every non-panicking path, so plain `Nat` arithmetic is exact;
  the one place where a `usize` subtraction can underflow
  (`buckets.len() - 1` in `sort`, `sub_assign` in `next_reverse`) is
  modelled with an explicit check that panics, matching the overflow
  check of a debug build (a release build reaches a panic at the
  immediately following slice access instead).
* The character type `C` is instantiated at `u8` (byte input):
  `C::MAX = 255`.  Texts are `List Nat`.
* Panics (failed `assert!`/`debug_assert!`, out-of-bounds indexing,
  `unwrap` on `None`, UB of `get_unchecked`) are modelled as
  `Except.error .panicE`.  Debug assertions are modelled as real checks,
  following the spec (§7) which treats them as contract checks.
* General recursion (`induced_sort`, `suffix_sort`, the cursor loop of
  `move_elements_in_place`) is modelled with explicit fuel; running out
  of fuel gives the distinguished result `Except.error .nofuelE`, and the
  termination theorems show the chosen fuel never runs out.
* Mutable slices are modelled by threading `List` values; in-place
  sub-slice splits (`split_at_mut`, `retain`) are modelled by
  `take`/`drop` and re-concatenation.
-/

set_option maxRecDepth 100000

inductive Err where
  | panicE : Err
  | nofuelE : Err
deriving DecidableEq, Repr

abbrev Res (α : Type) : Type := Except Err α

instance {α : Type} [DecidableEq α] : DecidableEq (Res α) := fun a b =>
  match a, b with
  | .ok x, .ok y =>
    match decEq x y with
    | isTrue h => isTrue (by rw [h])
    | isFalse h => isFalse (fun hh => h (by cases hh; rfl))
  | .error x, .error y =>
    match decEq x y with
    | isTrue h => isTrue (by rw [h])
    | isFalse h => isFalse (fun hh => h (by cases hh; rfl))
  | .ok _, .error _ => isFalse (fun hh => by cases hh)
  | .error _, .ok _ => isFalse (fun hh => by cases hh)

/-- A failed assertion / panic. -/
def assertR (p : Prop) [Decidable p] : Res Unit :=
  if p then .ok () else .error .panicE

/-- Rust slice read `l[i]`: panics when out of bounds. -/
def getE {α : Type} (l : List α) (i : Nat) : Res α :=
  match l.get? i with
  | some v => .ok v
  | none => .error .panicE

/-- Rust slice write `l[i] = v`: panics when out of bounds. -/
def setE {α : Type} (l : List α) (i : Nat) (v : α) : Res (List α) :=
  if i < l.length then .ok (l.set i v) else .error .panicE

/-- Rust `slice::swap`. -/
def swapE {α : Type} (l : List α) (i j : Nat) : Res (List α) := do
  let a ← getE l i
  let b ← getE l j
  let l ← setE l i b
  setE l j a

/-- `for i in lo..lo+count` over a state, monadically. -/
def foldUpM {σ : Type} (f : Nat → σ → Res σ) : Nat → Nat → σ → Res σ
  | _, 0, s => .ok s
  | i, k+1, s => (f i s).bind (foldUpM f (i+1) k)

/-- `for i in (0..k).rev()` over a state, monadically. -/
def foldDownM {σ : Type} (f : Nat → σ → Res σ) : Nat → σ → Res σ
  | 0, s => .ok s
  | k+1, s => (f k s).bind (foldDownM f k)

/-- `for x in xs` over a state, monadically. -/
def foldListM {α σ : Type} (f : α → σ → Res σ) : List α → σ → Res σ
  | [], s => .ok s
  | x :: xs, s => (f x s).bind (foldListM f xs)

/-- `usize::MAX`, the NIL sentinel of the index type. -/
def USIZE_MAX : Nat := 2 ^ 64 - 1

/-- `I::MAX` used as the empty-slot marker NIL in `sais.rs`. -/
def NIL : Nat := USIZE_MAX

/-- `u8::MAX` — `C::MAX` for byte input. -/
def CMAX : Nat := 255

/-- `sais::Type` (the L/S suffix type). -/
inductive Typ where
  | L : Typ
  | S : Typ
deriving DecidableEq, Repr

/-- Body of the loop of `classify_sub_slice`:
`types[i] = match text[i].cmp(&text[i+1]) { Less => S, Greater => L, Equal => types[i+1] }`. -/
def classifyStep (text : List Nat) (i : Nat) (types : List Typ) : Res (List Typ) := do
  let a ← getE text i
  let b ← getE text (i + 1)
  let t ← getE types (i + 1)
  let r := if a < b then Typ.S else if b < a then Typ.L else t
  setE types i r

/-- `classify_sub_slice` on the slice `types[..k+1]` of a larger types
array (the source passes a sub-slice; the loop touches indices `k-1` down
to `0` and reads index `i+1 ≤ k`, so operating on the full list with an
explicit bound `k` is equivalent). -/
def classifySubSliceAt (text : List Nat) (types : List Typ) (k : Nat) : Res (List Typ) :=
  foldDownM (classifyStep text) k types

/-- `classify_sub_slice(text, types)` with `types` the full array:
loop bound is `types.len() - 1`. -/
def classifySubSlice (text : List Nat) (types : List Typ) : Res (List Typ) :=
  classifySubSliceAt text types (types.length - 1)

/-- `sais::classify`. -/
def classify (text : List Nat) (types : List Typ) : Res (List Typ) := do
  assertR (types.length = text.length)
  assertR (text.length ≠ 0)
  -- `*types.last_mut().unwrap() = Type::L` (unwrap of None panics)
  let types ← setE types (types.length - 1) Typ.L
  classifySubSlice text types

/-- Inner loop of `buckets_count`: `buckets[text[i] as usize] += 1` for
each character, in text order. -/
def bucketsCountGo : List Nat → List Nat → Res (List Nat)
  | [], b => .ok b
  | c :: rest, b => do
    let v ← getE b c
    let b ← setE b c (v + 1)
    bucketsCountGo rest b

/-- `sais::buckets_count` (the all-zero check is a `cfg!(debug_assertions)`
assertion in the source). -/
def bucketsCount (text : List Nat) (buckets : List Nat) : Res (List Nat) := do
  assertR (∀ v ∈ buckets, v = 0)
  bucketsCountGo text buckets

/-- `sais::bucket_ends`: in-place inclusive prefix sums. -/
def bucketEnds : Nat → List Nat → List Nat
  | _, [] => []
  | sum, v :: rest => (v + sum) :: bucketEnds (v + sum) rest

/-- `sais::bucket_starts`: in-place exclusive prefix sums. -/
def bucketStarts : Nat → List Nat → List Nat
  | _, [] => []
  | sum, v :: rest => sum :: bucketStarts (sum + v) rest

/-- `Buckets::make_starts`. -/
def makeStarts (text : List Nat) (buckets : List Nat) : Res (List Nat) := do
  let b ← bucketsCount text buckets
  .ok (bucketStarts 0 b)

/-- `Buckets::make_ends`. -/
def makeEnds (text : List Nat) (buckets : List Nat) : Res (List Nat) := do
  let b ← bucketsCount text buckets
  .ok (bucketEnds 0 b)

/-- `Buckets::next`: return the cursor, then advance it forward. -/
def bNext (b : List Nat) (bucket : Nat) : Res (Nat × List Nat) := do
  let v ← getE b bucket
  let b ← setE b bucket (v + 1)
  .ok (v, b)

/-- `Buckets::next_reverse`: pre-decrement the cursor, then return it.
A zero cursor underflows the `usize` subtraction: a debug build panics
there, a release build wraps around and panics at the out-of-bounds
write that immediately consumes the result. -/
def bNextReverse (b : List Nat) (bucket : Nat) : Res (Nat × List Nat) := do
  let v ← getE b bucket
  assertR (v ≠ 0)
  let b ← setE b bucket (v - 1)
  .ok (v - 1, b)

/-- `Buckets::suffix_bucket_next`. -/
def suffixBucketNext (text : List Nat) (b : List Nat) (suffix : Nat) :
    Res (Nat × List Nat) := do
  let c ← getE text suffix
  bNext b c

/-- `Buckets::suffix_bucket_next_reverse`. -/
def suffixBucketNextReverse (text : List Nat) (b : List Nat) (suffix : Nat) :
    Res (Nat × List Nat) := do
  let c ← getE text suffix
  bNextReverse b c

/-- `Buckets::into_cleared`: `buckets.fill(0)`. -/
def intoCleared (b : List Nat) : List Nat := b.map (fun _ => 0)

/-- `sais::is_lms`. -/
def isLms (types : List Typ) (suffix : Nat) : Res Bool := do
  assertR (suffix ≠ 0)
  let a ← getE types (suffix - 1)
  let b ← getE types suffix
  .ok (match a, b with | .L, .S => true | _, _ => false)

/-- Search loop of `lms_substring`, in structurally recursive form: the
counter starts at `text.length - i` and counts the remaining scan steps
(it reaches `0` exactly when `i` leaves the text). -/
def lmsSubstringGoF (text : List Nat) (types : List Typ) (index : Nat) :
    Nat → Nat → Res (List Nat)
  | 0, _ => .ok (text.drop index)
  | fuel + 1, i =>
    if i < text.length then do
      let b ← isLms types i
      if b then .ok ((text.drop index).take (i + 1 - index))
      else lmsSubstringGoF text types index fuel (i + 1)
    else .ok (text.drop index)

/-- Search loop of `lms_substring`: scan `i = index+1, ...` for the next
LMS position; on success return `text[index..=i]`, otherwise
`text[index..]`. -/
def lmsSubstringGo (text : List Nat) (types : List Typ) (index : Nat)
    (i : Nat) : Res (List Nat) :=
  lmsSubstringGoF text types index (text.length - i) i

/-- `sais::lms_substring`. -/
def lmsSubstring (index : Nat) (text : List Nat) (types : List Typ) :
    Res (List Nat) := do
  assertR (index < text.length)
  assertR (index ≠ 0)
  lmsSubstringGo text types index (index + 1)

/-- `sais::lms_substrings_eq`: equal lengths and pointwise equal
characters and types. -/
def lmsSubstringsEq (left : List Nat) (leftTypes : List Typ)
    (right : List Nat) (rightTypes : List Typ) : Res Bool := do
  assertR (leftTypes.length = left.length)
  assertR (rightTypes.length = right.length)
  if left.length ≠ right.length then .ok false
  else
    .ok (((left.zip leftTypes).zip (right.zip rightTypes)).all fun p =>
      p.1.1 == p.2.1 && p.1.2 == p.2.2)

/-- Body of the compaction loop of `sais::retain`: read `values[i]`, and
when the predicate holds copy it to the write offset and advance the
offset. -/
def retainStep {α : Type} (pred : α → Res Bool) (i : Nat)
    (st : List α × Nat) : Res (List α × Nat) := do
  let v ← getE st.1 i
  let keep ← pred v
  if keep then do
    let vs ← setE st.1 st.2 v
    .ok (vs, st.2 + 1)
  else .ok st

/-- `sais::retain`: moves values matching the predicate to the front;
positions from the final write offset onward keep their previous
(unspecified in the source, but deterministic) contents.  Returns the
two halves of `split_at_mut(write_offset)`. -/
def retainM {α : Type} (pred : α → Res Bool) (values : List α) :
    Res (List α × List α) := do
  let st ← foldUpM (retainStep pred) 0 values.length (values, 0)
  .ok (st.1.take st.2, st.1.drop st.2)

/-- `sais::Reduced` (the two sub-slices of the suffix array are carried
as separate lists; the slack after `reduced_str` only ever holds garbage
that the driver overwrites before reading). -/
structure Reduced where
  lms_suffixes_sorted : List Nat
  reduced_str : List Nat
  max_order : Nat
deriving DecidableEq, Repr

/-- Per-element body of the naming loop of `sais::reduce`. -/
def reduceNamingStep (text : List Nat) (types : List Typ) (suffix : Nat)
    (st : List Nat × Nat × List Nat × List Typ) :
    Res (List Nat × Nat × List Nat × List Typ) := do
  let (rest, order, lastStr, lastTypes) := st
  let subStr ← lmsSubstring suffix text types
  -- `&types[suffix..suffix + sub_str.len()]` (range slicing panics
  -- when the end exceeds the length)
  assertR (suffix + subStr.length ≤ types.length)
  let subTypes := (types.drop suffix).take subStr.length
  let eqPrev ← lmsSubstringsEq lastStr lastTypes subStr subTypes
  let order := if eqPrev then order else order + 1
  let rest ← setE rest (suffix / 2) order
  .ok (rest, order, subStr, subTypes)

/-- Naming block of `sais::reduce` (lines 304–333): `rest` arrives
NIL-filled; the first sorted LMS suffix gets name `0` at slot
`suffix / 2`, every later one keeps or increments the running name
depending on `lms_substrings_eq` with its predecessor.  Returns the
written `rest` and the final name. -/
def reduceNaming (text : List Nat) (types : List Typ) (lms : List Nat)
    (rest : List Nat) : Res (List Nat × Nat) := do
  match lms with
  | [] => .error .panicE   -- `iter.next().unwrap()`
  | first :: tail => do
    let rest ← setE rest (first / 2) 0
    let firstStr ← lmsSubstring first text types
    assertR (first + firstStr.length ≤ types.length)
    let firstTypes := (types.drop first).take firstStr.length
    let st ← foldListM (reduceNamingStep text types) tail
      (rest, 0, firstStr, firstTypes)
    .ok (st.1, st.2.1)

/-- `sais::reduce`. -/
def reduce (text : List Nat) (types : List Typ) (suffixes : List Nat) :
    Res Reduced := do
  let (lms, rest) ← retainM (fun s => do
      if s = 0 then .ok false else isLms types s) suffixes
  assertR (lms ≠ [])
  assertR (lms.length ≤ text.length / 2)
  let rest := rest.map (fun _ => NIL)    -- `rest.fill(I::MAX)`
  let (rest, order) ← reduceNaming text types lms rest
  let packed ← retainM (fun v => .ok (decide (v ≠ NIL))) rest
  .ok ⟨lms, packed.1, order⟩

/-- Body of the two placement loops of `sais::induce_ls`, L-pass flavour:
`if SA[i] != NIL && SA[i] != 0` and the predecessor is L-typed, push it
at the head of its bucket. -/
def induceLsStepL (text : List Nat) (types : List Typ) (i : Nat)
    (st : List Nat × List Nat) : Res (List Nat × List Nat) := do
  let (b, sfx) := st
  let s ← getE sfx i
  if s ≠ NIL ∧ s ≠ 0 then do
    let prev := s - 1
    let t ← getE types prev
    match t with
    | .L => do
      let (idx, b) ← suffixBucketNext text b prev
      let sfx ← setE sfx idx prev
      .ok (b, sfx)
    | .S => .ok (b, sfx)
  else .ok st

/-- S-pass flavour of the placement loop of `sais::induce_ls`. -/
def induceLsStepS (text : List Nat) (types : List Typ) (i : Nat)
    (st : List Nat × List Nat) : Res (List Nat × List Nat) := do
  let (b, sfx) := st
  let s ← getE sfx i
  if s ≠ NIL ∧ s ≠ 0 then do
    let prev := s - 1
    let t ← getE types prev
    match t with
    | .S => do
      let (idx, b) ← suffixBucketNextReverse text b prev
      let sfx ← setE sfx idx prev
      .ok (b, sfx)
    | .L => .ok (b, sfx)
  else .ok st

/-- `Option::unwrap`. -/
def unwrapO {α : Type} : Option α → Res α
  | some v => .ok v
  | none => .error .panicE

/-- Special case at the top of `induce_ls`: if the last suffix is
L-typed, push it at the head of its bucket before the scan
(`I::from_index(suffixes.len() - 1)` underflows on an empty slice). -/
def induceLsLast (text : List Nat) (types : List Typ) (b : List Nat)
    (suffixes : List Nat) : Res (List Nat × List Nat) := do
  assertR (suffixes.length ≠ 0)
  let last := suffixes.length - 1
  let tL ← getE types last
  match tL with
  | .L => do
    let (idx, b) ← suffixBucketNext text b last
    let sfx ← setE suffixes idx last
    .ok (b, sfx)
  | .S => .ok (b, suffixes)

/-- `sais::induce_ls` (steps 2 and 3 of the induction): returns the
cleared buckets and the updated suffix array. -/
def induceLs (text : List Nat) (types : List Typ) (buckets : List Nat)
    (suffixes : List Nat) : Res (List Nat × List Nat) := do
  let b ← makeStarts text buckets
  let (b, suffixes) ← induceLsLast text types b suffixes
  let (b, suffixes) ←
    foldUpM (induceLsStepL text types) 0 suffixes.length (b, suffixes)
  let b := intoCleared b
  let b ← makeEnds text b
  let (b, suffixes) ←
    foldDownM (induceLsStepS text types) suffixes.length (b, suffixes)
  .ok (intoCleared b, suffixes)

/-- LMS-seeding loop of `sais::induce`: push each LMS position at the
tail of its bucket, counting them and remembering the last one. -/
def induceSeedStep (text : List Nat) (types : List Typ) (suffix : Nat)
    (st : List Nat × List Nat × Nat × Option Nat) :
    Res (List Nat × List Nat × Nat × Option Nat) := do
  let (b, sfx, cnt, lastLms) := st
  let il ← isLms types suffix
  if il then do
    let (idx, b) ← suffixBucketNextReverse text b suffix
    let sfx ← setE sfx idx suffix
    .ok (b, sfx, cnt + 1, some suffix)
  else .ok (b, sfx, cnt, lastLms)

/-- `sais::induce`: zero-fill SA, seed the LMS positions at bucket tails,
then (if at least two LMS exist) run `induce_ls` and `reduce`; a single
LMS short-circuits to a one-character reduced string; no LMS yields
`None`.  Returns the buckets, the suffix-array contents (meaningful in
the `None` case, where the driver continues on them), and the optional
`Reduced`. -/
def induce (text : List Nat) (types : List Typ) (suffixes : List Nat)
    (buckets : List Nat) : Res (List Nat × List Nat × Option Reduced) := do
  assertR (types.length ≠ 0)
  let suffixes := suffixes.map (fun _ => 0)    -- `suffixes.fill(0)`
  let b ← makeEnds text buckets
  let (b, suffixes, lmsCount, lastLms) ←
    foldUpM (induceSeedStep text types) 1 (types.length - 1)
      (b, suffixes, 0, none)
  let b := intoCleared b
  if lmsCount > 1 then do
    let (b, suffixes) ← induceLs text types b suffixes
    let r ← reduce text types suffixes
    assertR (r.lms_suffixes_sorted.length = lmsCount)
    .ok (b, suffixes, some r)
  else if lmsCount = 1 then do
    let lms ← unwrapO lastLms     -- `last_lms.unwrap()`
    -- `suffixes.split_at_mut(1)` and `rest.split_at_mut(1)`: panic
    -- unless the array holds at least two slots
    assertR (2 ≤ suffixes.length)
    let suffixes := (suffixes.set 0 lms).set 1 0
    .ok (b, suffixes, some ⟨[lms], [0], 0⟩)
  else .ok (b, suffixes, none)

/-- `Vec::resize(new_len, value)`: truncate, or extend with copies of
`value`. -/
def listResize {α : Type} (l : List α) (n : Nat) (v : α) : List α :=
  if n ≤ l.length then l.take n else l ++ List.replicate (n - l.length) v

/-- Gather loop after the recursive call in `sais::induced_sort`: write
the LMS positions (in text order) into the `suffix_indices` slice (the
memory of `reduced_str`). -/
def gatherLmsStep (types : List Typ) (suffix : Nat) (st : List Nat × Nat) :
    Res (List Nat × Nat) := do
  let il ← isLms types suffix
  if il then do
    let si ← setE st.1 st.2 suffix
    .ok (si, st.2 + 1)
  else .ok st

/-- Translation loop: `suffix_array[i] = suffix_indices[suffix_array[i]]`
for `i < lms_count`. -/
def translateStep (si : List Nat) (i : Nat) (sa : List Nat) : Res (List Nat) := do
  let v ← getE sa i
  let w ← getE si v
  setE sa i w

/-- Recursion branch of `sais::induced_sort` (lines 367–397), with the
recursive call abstracted as `recur`: grow the buckets, recurse on the
reduced string with the LMS slice as its suffix array and the prefix of
`types` as its type scratch, restore `types` by `classify_sub_slice` on
the prefix of length `lms_count + 1`, shrink and clear the buckets, then
translate the recursion result back to text positions. -/
def lmsRecurse (recur : List Nat → List Nat → List Typ → List Nat →
      Res (List Nat × List Typ × List Nat))
    (text : List Nat) (types : List Typ) (b : List Nat) (r : Reduced) :
    Res (List Nat × List Typ × List Nat) := do
  let lmsCount := r.lms_suffixes_sorted.length
  let requiredLen := r.max_order + 1
  let oldLen := b.length
  let b := listResize b requiredLen 0
  let (lms, typesPrefix, b) ←
    recur r.reduced_str r.lms_suffixes_sorted (types.take lmsCount) b
  let types := typesPrefix ++ types.drop lmsCount
  -- `&mut types[..suffix_array.len() + 1]` (slicing panics when too short)
  assertR (lmsCount + 1 ≤ types.length)
  let types ← classifySubSliceAt text types lmsCount
  let b := (listResize b oldLen 0).map (fun _ => 0)   -- resize + fill(0)
  let (si, _) ←
    foldUpM (gatherLmsStep types) 1 (types.length - 1) (r.reduced_str, 0)
  let lms ← foldUpM (translateStep si) 0 lmsCount lms
  .ok (lms, types, b)

/-- Tail-placement loop of `sais::induced_sort` (lines 410–415): pop the
sorted LMS suffixes right to left, blanking their slot and pushing them
at the tails of their buckets. -/
def placeLmsStep (text : List Nat) (i : Nat) (st : List Nat × List Nat) :
    Res (List Nat × List Nat) := do
  let (b, sa) := st
  let s ← getE sa i
  let sa ← setE sa i NIL
  let (idx, b) ← suffixBucketNextReverse text b s
  let sa ← setE sa idx s
  .ok (b, sa)

/-- Tail of the `Some` branch of `sais::induced_sort` (lines 402–417
plus the final `induce_ls`): fill the slots after the sorted LMS block
with NIL (`suffix_array[lms_count..].fill(I::MAX)`; the slicing panics
when `lms_count` exceeds the length, and the slots below it are the
`lms_suffixes_sorted` slice itself), place the LMS suffixes at their
bucket tails, and run the final two-pass induction. -/
def finishLms (text : List Nat) (types : List Typ) (b : List Nat)
    (lmsSorted : List Nat) (lmsCount : Nat) (saLen : Nat) :
    Res (List Nat × List Typ × List Nat) := do
  assertR (lmsCount ≤ saLen)
  let sa := lmsSorted ++ List.replicate (saLen - lmsCount) NIL
  let b ← makeEnds text b
  let (b, sa) ← foldDownM (placeLmsStep text) lmsCount (b, sa)
  let b := intoCleared b
  let (b, sa) ← induceLs text types b sa
  .ok (sa, types, b)

/-- One unfolding of `sais::induced_sort`, with the recursive call
abstracted as `recur`.  Returns `(suffix_array, types, buckets)`. -/
def inducedSortBody (recur : List Nat → List Nat → List Typ → List Nat →
      Res (List Nat × List Typ × List Nat))
    (text : List Nat) (suffixArray : List Nat) (types : List Typ)
    (buckets : List Nat) : Res (List Nat × List Typ × List Nat) := do
  assertR (text.length = suffixArray.length)
  -- `cfg!(debug_assertions)` loop: every character indexes the buckets
  assertR (∀ c ∈ text, c < buckets.length)
  let types ← classify text types
  let (b, sa, reduced) ← induce text types suffixArray buckets
  match reduced with
  | some r => do
    assertR (r.max_order ≤ r.reduced_str.length)
    assertR (r.lms_suffixes_sorted.length = r.reduced_str.length)
    let lmsCount := r.lms_suffixes_sorted.length
    let (lmsSorted, types, b) ←
      if r.max_order < r.reduced_str.length - 1 then
        lmsRecurse recur text types b r
      else .ok (r.lms_suffixes_sorted, types, b)
    finishLms text types b lmsSorted lmsCount sa.length
  | none => do
    let (b, sa) ← induceLs text types b sa
    .ok (sa, types, b)

/-- `sais::induced_sort`, driven by explicit fuel (the Rust recursion has
no structural measure; the termination theorem shows fuel
`text.length + 1` always suffices). -/
def inducedSort : Nat → List Nat → List Nat → List Typ → List Nat →
    Res (List Nat × List Typ × List Nat)
  | 0, _, _, _, _ => .error .nofuelE
  | fuel + 1, text, suffixArray, types, buckets =>
    inducedSortBody (inducedSort fuel) text suffixArray types buckets

/-- Entry assertions of `sais::sort` (lines 428–430).  The third one is
`assert!(buckets.len() - 1 >= C::MAX)` on `usize`: an empty bucket
buffer underflows the subtraction (debug panic; a release build wraps,
passes the assert and panics at the first bucket access instead). -/
def sortEntryChecks (textLen saLen typesLen bucketsLen : Nat) : Res Unit := do
  assertR (textLen = saLen)
  assertR (textLen = typesLen)
  assertR (bucketsLen ≠ 0)
  assertR (CMAX ≤ bucketsLen - 1)

/-- `sais::sort`, the public entry point, at `C = u8`, `I = usize`. -/
def sort (text : List Nat) (suffixArray : List Nat) (types : List Typ)
    (buckets : List Nat) : Res (List Nat × List Typ × List Nat) := do
  sortEntryChecks text.length suffixArray.length types.length buckets.length
  inducedSort (text.length + 1) text suffixArray types buckets

/-- `radix_sort::BUCKETS`. -/
def RADIX_BUCKETS : Nat := 256

/-- `radix_sort::exclusive_sum` (same scan as `bucket_starts`). -/
def exclusiveSum : Nat → List Nat → List Nat
  | _, [] => []
  | sum, v :: rest => sum :: exclusiveSum (sum + v) rest

/-- Cursor loop of `radix_sort::move_elements_in_place`, with fuel for
the non-structural `while`.  The unchecked reads are modelled as
bounds-checked reads that panic, which is how the stated safety
preconditions make them behave. -/
def melGo (text : List Nat) : Nat → Nat → List Nat → List Nat →
    Res (List Nat × List Nat)
  | 0, _, _, _ => .error .nofuelE
  | fuel + 1, i, indices, buckets =>
    if i < indices.length then do
      let suffix ← getE indices i
      assertR (suffix ≤ text.length)
      let bucket ← getE text suffix
      let offset ← getE buckets bucket
      if i < offset then
        melGo text fuel (i + 1) indices buckets
      else if offset = i then do
        let buckets ← setE buckets bucket (offset + 1)
        melGo text fuel (i + 1) indices buckets
      else do
        let indices ← swapE indices i offset
        let buckets ← setE buckets bucket (offset + 1)
        melGo text fuel i indices buckets
    else .ok (indices, buckets)

/-- `radix_sort::move_elements_in_place`.  The fuel bound is generous:
each loop iteration advances `i` or one of the 256 cursors, and every
cursor increment happens at a value `≤ i`. -/
def moveElementsInPlace (indices : List Nat) (text : List Nat)
    (buckets : List Nat) : Res (List Nat × List Nat) := do
  let buckets := exclusiveSum 0 buckets
  melGo text (257 * (indices.length + 1) + 1) 0 indices buckets

/-- Counting scan at the top of the loop of `radix_sort::suffix_sort`:
count each suffix by its first character, remembering the position of
the at-most-one empty suffix (`debug_assert!(empty.is_none())`). -/
def ssScanStep (text : List Nat) (indices : List Nat) (i : Nat)
    (st : Option Nat × List Nat) : Res (Option Nat × List Nat) := do
  let idx ← getE indices i
  if idx = text.length then do
    assertR (st.1 = none)
    .ok (some i, st.2)
  else do
    let c ← getE text idx
    let v ← getE st.2 c
    let b ← setE st.2 c (v + 1)
    .ok (st.1, b)

/-- Result of the front loop of `radix_sort::suffix_sort`. -/
inductive RadixLoopOut where
  | done : List Nat → RadixLoopOut
  | cont : List Nat → List Nat → List Nat → List Nat → RadixLoopOut
deriving DecidableEq, Repr

/-- Empty-suffix removal inside the loop of `radix_sort::suffix_sort`
(lines 79–84): swap the empty suffix to slot 0 and exclude that slot
(`indices.get_unchecked_mut(1..)`); the excluded element joins the
parked prefix of the full slice. -/
def removeEmpty (parked indices : List Nat) (emptyAt : Option Nat) :
    Res (List Nat × List Nat) :=
  match emptyAt with
  | some e => do
    let indices ← swapE indices 0 e
    assertR (2 ≤ indices.length)
    match indices with
    | h :: t => .ok (parked ++ [h], t)
    | [] => .error .panicE
  | none => .ok (parked, indices)

/-- The front `loop` of `radix_sort::suffix_sort` (lines 61–101).
`parked` accumulates elements split off at the front of the slice (one
per removed empty suffix); the full slice is always
`parked ++ indices`.  `done` is a `return` from `suffix_sort`,
`cont` is the `break` into the partition phase. -/
def radixLoop : List Nat → List Nat → List Nat → List Nat → Res RadixLoopOut
  | parked, indices, [], _ => .ok (.done (parked ++ indices))
  | parked, indices, c :: text', buckets => do
    let text := c :: text'
    let (emptyAt, buckets) ←
      foldUpM (ssScanStep text indices) 0 indices.length (none, buckets)
    let (parked, indices) ← removeEmpty parked indices emptyAt
    assertR (1 ≤ indices.length)
    let i0 ← getE indices 0
    let firstBucket ← getE text i0
    let cnt ← getE buckets firstBucket
    if cnt = indices.length then
      if 2 ≤ indices.length then do
        let buckets ← setE buckets firstBucket 0
        radixLoop parked indices text' buckets
      else .ok (.done (parked ++ indices))
    else .ok (.cont parked indices text buckets)

/-- Per-bucket body of the partition recursion at the bottom of
`radix_sort::suffix_sort`: recurse into every bucket of size at least
two, with the text advanced by one character. -/
def segmentStep (recur : List Nat → List Nat → Res (List Nat))
    (text' : List Nat) (bucketEnd : Nat) (st : Nat × List Nat) :
    Res (Nat × List Nat) := do
  let (lastEnd, indices) := st
  -- `bucket_end - last_end` underflows when the ends are not monotone
  assertR (lastEnd ≤ bucketEnd)
  if 2 ≤ bucketEnd - lastEnd then do
    assertR (bucketEnd ≤ indices.length)
    let seg := (indices.drop lastEnd).take (bucketEnd - lastEnd)
    let seg ← recur seg text'
    .ok (bucketEnd, indices.take lastEnd ++ seg ++ indices.drop bucketEnd)
  else .ok (bucketEnd, indices)

/-- `radix_sort::suffix_sort`, with fuel for the recursion (each level
advances the text by at least one character, so `text.length + 1`
suffices). -/
def suffixSortF : Nat → List Nat → List Nat → Res (List Nat)
  | 0, _, _ => .error .nofuelE
  | fuel + 1, indices, text => do
    let out ← radixLoop [] indices text (List.replicate RADIX_BUCKETS 0)
    match out with
    | .done res => .ok res
    | .cont parked indices text buckets => do
      let (indices, buckets) ← moveElementsInPlace indices text buckets
      assertR (1 ≤ text.length)    -- `text.get_unchecked(1..)`
      let text' := text.drop 1
      let (_, indices) ←
        foldListM (segmentStep (suffixSortF fuel) text') buckets (0, indices)
      .ok (parked ++ indices)

/-- `radix_sort::sort`. -/
def radixSort (indices : List Nat) (text : List Nat) : Res (List Nat) :=
  if indices.length ≤ 1 then .ok indices
  else suffixSortF (text.length + 1) indices text

/-- `radix_sort::make_suffix_array`. -/
def makeSuffixArray (text : List Nat) : Res (List Nat) := do
  assertR (text.length < USIZE_MAX)
  radixSort (List.range text.length) text

/-!  Pure characterizations used to state the claims.  Each is proved
equal to the corresponding monadic translation on in-bounds inputs. -/

/-- Pure version of `is_lms`: position `0` is never LMS, otherwise the
pattern `(types[i-1], types[i]) = (L, S)`. -/
def isLmsP (types : List Typ) : Nat → Bool
  | 0 => false
  | k + 1 =>
    match types.get? k, types.get? (k + 1) with
    | some .L, some .S => true
    | _, _ => false

/-- Pure version of the search loop of `lms_substring` (same counter as
`lmsSubstringGoF`). -/
def lmsSubGoPF (text : List Nat) (types : List Typ) (index : Nat) :
    Nat → Nat → List Nat
  | 0, _ => text.drop index
  | fuel + 1, i =>
    if i < text.length then
      if isLmsP types i then (text.drop index).take (i + 1 - index)
      else lmsSubGoPF text types index fuel (i + 1)
    else text.drop index

/-- Pure version of the search loop of `lms_substring`. -/
def lmsSubGoP (text : List Nat) (types : List Typ) (index : Nat)
    (i : Nat) : List Nat :=
  lmsSubGoPF text types index (text.length - i) i

/-- The LMS substring at `index` together with its slice of the type
array (the pair that `lms_substrings_eq` compares). -/
def lmsSubP (text : List Nat) (types : List Typ) (index : Nat) :
    List Nat × List Typ :=
  let s := lmsSubGoP text types index (index + 1)
  (s, (types.drop index).take s.length)

/-- The sequence of names that the naming loop of `reduce` assigns to
the successive sorted LMS suffixes after the first: keep the running
name when the LMS substring (value and type) equals the previous one,
otherwise increment it. -/
def namesGo (text : List Nat) (types : List Typ) :
    List Nat × List Typ → Nat → List Nat → List Nat
  | _, _, [] => []
  | prev, ord, s :: rest =>
    let cur := lmsSubP text types s
    let ord' := if cur = prev then ord else ord + 1
    ord' :: namesGo text types cur ord' rest

/-- The full name sequence of the naming loop, one name per sorted LMS
suffix, the first being `0`. -/
def namesP (text : List Nat) (types : List Typ) (lms : List Nat) : List Nat :=
  match lms with
  | [] => []
  | s :: t => 0 :: namesGo text types (lmsSubP text types s) 0 t

/-!  Generic lemmas about the result monad and the loop combinators. -/

theorem res_bind_ok {α β : Type} {x : Res α} {f : α → Res β} {b : β} :
    x >>= f = .ok b ↔ ∃ a, x = .ok a ∧ f a = .ok b := by
  cases x <;> simp [Bind.bind, Except.bind]

theorem res_bind_err {α β : Type} {x : Res α} {f : α → Res β} {e : Err} :
    x >>= f = .error e ↔
      x = .error e ∨ ∃ a, x = .ok a ∧ f a = .error e := by
  cases x <;> simp [Bind.bind, Except.bind]

theorem assertR_ok {p : Prop} [Decidable p] {u : Unit} :
    assertR p = .ok u ↔ p := by
  by_cases h : p <;> simp [assertR, h]

theorem assertR_pos {p : Prop} [Decidable p] (h : p) : assertR p = .ok () := by
  simp [assertR, h]

theorem assertR_ne_nofuel {p : Prop} [Decidable p] :
    assertR p ≠ .error .nofuelE := by
  by_cases h : p <;> simp [assertR, h]

theorem getE_ok {α : Type} {l : List α} {i : Nat} {v : α} :
    getE l i = .ok v ↔ l.get? i = some v := by
  unfold getE
  cases h : l.get? i <;> simp

theorem getE_ne_nofuel {α : Type} {l : List α} {i : Nat} :
    getE l i ≠ .error .nofuelE := by
  unfold getE
  cases h : l.get? i <;> simp

theorem setE_ok {α : Type} {l : List α} {i : Nat} {v : α} {l' : List α} :
    setE l i v = .ok l' ↔ i < l.length ∧ l' = l.set i v := by
  unfold setE
  by_cases h : i < l.length <;> simp [h, eq_comm]

theorem setE_ne_nofuel {α : Type} {l : List α} {i : Nat} {v : α} :
    setE l i v ≠ .error .nofuelE := by
  unfold setE
  by_cases h : i < l.length <;> simp [h]

/-- Any property preserved by the loop body is preserved by `foldUpM`. -/
theorem foldUpM_inv {σ : Type} (P : σ → Prop) {f : Nat → σ → Res σ}
    (hf : ∀ i s s', P s → f i s = .ok s' → P s') :
    ∀ k i s s', P s → foldUpM f i k s = .ok s' → P s' := by
  intro k
  induction k with
  | zero => intro i s s' hs h; cases h; exact hs
  | succ k ih =>
    intro i s s' hs h
    rw [show foldUpM f i (k+1) s = (f i s).bind (foldUpM f (i+1) k) from rfl] at h
    cases hfi : f i s with
    | error e => rw [hfi] at h; cases h
    | ok s₁ =>
      rw [hfi] at h
      exact ih (i+1) s₁ s' (hf i s s₁ hs hfi) h

/-- Any property preserved by the loop body is preserved by `foldDownM`. -/
theorem foldDownM_inv {σ : Type} (P : σ → Prop) {f : Nat → σ → Res σ}
    (hf : ∀ i s s', P s → f i s = .ok s' → P s') :
    ∀ k s s', P s → foldDownM f k s = .ok s' → P s' := by
  intro k
  induction k with
  | zero => intro s s' hs h; cases h; exact hs
  | succ k ih =>
    intro s s' hs h
    rw [show foldDownM f (k+1) s = (f k s).bind (foldDownM f k) from rfl] at h
    cases hfi : f k s with
    | error e => rw [hfi] at h; cases h
    | ok s₁ =>
      rw [hfi] at h
      exact ih s₁ s' (hf k s s₁ hs hfi) h

/-- Any property preserved by the loop body is preserved by `foldListM`. -/
theorem foldListM_inv {α σ : Type} (P : σ → Prop) {f : α → σ → Res σ}
    (hf : ∀ x s s', P s → f x s = .ok s' → P s') :
    ∀ l s s', P s → foldListM f l s = .ok s' → P s' := by
  intro l
  induction l with
  | nil => intro s s' hs h; cases h; exact hs
  | cons x xs ih =>
    intro s s' hs h
    rw [show foldListM f (x :: xs) s = (f x s).bind (foldListM f xs) from rfl] at h
    cases hfi : f x s with
    | error e => rw [hfi] at h; cases h
    | ok s₁ =>
      rw [hfi] at h
      exact ih s₁ s' (hf x s s₁ hs hfi) h

/-- Claim C4 (amended): the entry assertions of `sais::sort` pass
exactly when `|SA| = |T|`, `|types| = |T|` and the bucket buffer has at
least `|Σ| = 256` entries (the source checks
`buckets.len() - 1 >= C::MAX` with `C::MAX = 255`, i.e. `≥ 256`
entries — not the `≥ 257` the claim states); and a failing entry check
makes `sort` panic. -/
theorem c4_entry_iff :
    (∀ n sa ty bk : Nat,
      sortEntryChecks n sa ty bk = .ok () ↔ (sa = n ∧ ty = n ∧ 256 ≤ bk)) ∧
    (∀ (text suffixArray : List Nat) (types : List Typ) (buckets : List Nat),
      sortEntryChecks text.length suffixArray.length types.length
        buckets.length = .error .panicE →
      sort text suffixArray types buckets = .error .panicE) := by
  constructor
  · intro n sa ty bk
    unfold sortEntryChecks CMAX
    constructor
    · intro h
      rw [res_bind_ok] at h
      obtain ⟨_, h1, h⟩ := h
      rw [res_bind_ok] at h
      obtain ⟨_, h2, h⟩ := h
      rw [res_bind_ok] at h
      obtain ⟨_, h3, h4⟩ := h
      rw [assertR_ok] at h1 h2 h3 h4
      omega
    · intro ⟨h1, h2, h3⟩
      rw [assertR_pos (by omega), res_bind_ok]
      exact ⟨(), rfl, by
        rw [assertR_pos (by omega), res_bind_ok]
        exact ⟨(), rfl, by
          rw [assertR_pos (by omega), res_bind_ok]
          exact ⟨(), rfl, assertR_pos (by omega)⟩⟩⟩
  · intro text suffixArray types buckets h
    unfold sort
    rw [h]
    rfl

/-- Witness for C4: a length mismatch makes `sort` panic. -/
theorem c4_entry_iff_witness : sort [0] [] [] [] = .error .panicE :=
  c4_entry_iff.2 [0] [] [] [] (by decide)

/-- Counterexample for C4 as stated: with a bucket buffer of exactly 256
entries — fewer than the 257 the claim requires for a non-panicking
run — `sort` completes successfully. -/
theorem c4_counterexample :
    sort [0] [5] [Typ.S] (List.replicate 256 0) =
      .ok ([0], [Typ.L], List.replicate 256 0) ∧ ¬ (257 ≤ 256) :=
  ⟨by decide, by decide⟩

/-- Claim C3: on the empty text (with correctly sized scratch buffers)
`sais::sort` does not return normally: `classify` unwraps
`types.last_mut()` on an empty slice and panics. -/
theorem c3_empty_text_panics :
    sort [] [] [] (List.replicate 257 0) = .error .panicE := by decide

/-- Claim C2, evaluated at the diverging input: on the empty text the
radix path `make_suffix_array` returns `[]` while the SA-IS entry point
panics, so the two do not produce identical suffix arrays on every
input. -/
theorem c2_empty_divergence :
    sort [] [] [] (List.replicate 256 0) = .error .panicE ∧
    makeSuffixArray [] = .ok ([] : List Nat) :=
  ⟨by decide, by decide⟩

/-- Counterexample for C7 as stated: the text `[0,1,0]` has length 3 and
classifies to `[S,L,L]`, under which no position in `[1,3)` is LMS, yet
`3 ≤ 2` fails. -/
theorem c7_counterexample :
    classify [0, 1, 0] [Typ.L, Typ.L, Typ.L] = .ok [Typ.S, Typ.L, Typ.L] ∧
    isLms [Typ.S, Typ.L, Typ.L] 1 = .ok false ∧
    isLms [Typ.S, Typ.L, Typ.L] 2 = .ok false ∧
    ¬ ((3 : Nat) ≤ 2) :=
  ⟨by decide, by decide, by decide, by decide⟩

/-- Claim C7 (amended): texts of length at most 2 indeed have no LMS
position (the last type is always `L`, and with `n ≤ 2` the only
candidate position is `n - 1`); the converse direction of the claim —
that a text without LMS positions has length at most 2 — is refuted by
`c7_counterexample`. -/
theorem c7_short_text_no_lms (text : List Nat) (types types' : List Typ)
    (hn : text.length ≤ 2) (h : classify text types = .ok types') :
    ∀ i, 1 ≤ i → i < text.length → isLms types' i = .ok false := by
  intro i h1 h2
  have ha : types.length = text.length := by
    unfold classify at h
    rw [res_bind_ok] at h
    obtain ⟨_, ha, _⟩ := h
    exact assertR_ok.mp ha
  have hn2 : text.length = 2 := by omega
  have hi : i = 1 := by omega
  subst hi
  obtain ⟨a, b, htext⟩ := List.length_eq_two.mp hn2
  subst htext
  obtain ⟨t0, t1, hto⟩ := List.length_eq_two.mp (by omega : types.length = 2)
  subst hto
  rcases Nat.lt_trichotomy a b with hab | hab | hab
  · have : classify [a, b] [t0, t1] = .ok [Typ.S, Typ.L] := by
      simp [classify, classifySubSlice, classifySubSliceAt, foldDownM,
        classifyStep, getE, setE, assertR, Bind.bind, Except.bind, hab]
    rw [this] at h
    cases h
    decide
  · subst hab
    have : classify [a, a] [t0, t1] = .ok [Typ.L, Typ.L] := by
      simp [classify, classifySubSlice, classifySubSliceAt, foldDownM,
        classifyStep, getE, setE, assertR, Bind.bind, Except.bind]
    rw [this] at h
    cases h
    decide
  · have hnab : ¬ a < b := by omega
    have : classify [a, b] [t0, t1] = .ok [Typ.L, Typ.L] := by
      simp [classify, classifySubSlice, classifySubSliceAt, foldDownM,
        classifyStep, getE, setE, assertR, Bind.bind, Except.bind, hab, hnab]
    rw [this] at h
    cases h
    decide

/-- Witness for C7 (amended): the length-2 text `[5,3]` classifies to
`[L,L]` and position 1 is not LMS. -/
theorem c7_short_text_no_lms_witness : isLms [Typ.L, Typ.L] 1 = .ok false :=
  c7_short_text_no_lms [5, 3] [Typ.L, Typ.L] [Typ.L, Typ.L]
    (by decide) (by decide) 1 (by decide) (by decide)

/-- The classification loop writes every position below its bound before
reading it, so its result only depends on the initial contents at the
bound and above. -/
theorem classify_loop_congr (text : List Nat) :
    ∀ k (s₁ s₂ : List Typ), s₁.length = s₂.length →
      (∀ j, k ≤ j → s₁.get? j = s₂.get? j) →
      foldDownM (classifyStep text) k s₁ = foldDownM (classifyStep text) k s₂ := by
  intro k
  induction k with
  | zero =>
    intro s₁ s₂ _ hj
    have : s₁ = s₂ := List.ext fun n => hj n (Nat.zero_le n)
    rw [this]
  | succ k ih =>
    intro s₁ s₂ hl hj
    rw [show foldDownM (classifyStep text) (k+1) s₁ =
          (classifyStep text k s₁).bind (foldDownM (classifyStep text) k) from rfl,
        show foldDownM (classifyStep text) (k+1) s₂ =
          (classifyStep text k s₂).bind (foldDownM (classifyStep text) k) from rfl]
    unfold classifyStep
    cases hta : getE text k with
    | error e => simp [Bind.bind, Except.bind, hta]
    | ok a =>
    cases htb : getE text (k + 1) with
    | error e => simp [Bind.bind, Except.bind, hta, htb]
    | ok b =>
    have hgt : getE s₁ (k + 1) = getE s₂ (k + 1) := by
      unfold getE; rw [hj (k + 1) (Nat.le_refl _)]
    cases hts : getE s₂ (k + 1) with
    | error e => simp [Bind.bind, Except.bind, hta, htb, hgt, hts]
    | ok t =>
    by_cases hk : k < s₂.length
    · have hk1 : k < s₁.length := by rw [hl]; exact hk
      have hset1 : ∀ r, setE s₁ k r = .ok (s₁.set k r) := fun r => by
        simp [setE, hk1]
      have hset2 : ∀ r, setE s₂ k r = .ok (s₂.set k r) := fun r => by
        simp [setE, hk]
      simp only [Bind.bind, Except.bind, hta, htb, hgt, hts, hset1, hset2]
      apply ih
      · simp [hl]
      · intro j hjk
        by_cases hjeq : k = j
        · subst hjeq
          rw [List.get?_set_eq_of_lt _ hk1, List.get?_set_eq_of_lt _ hk]
        · rw [List.get?_set_ne _ _ hjeq, List.get?_set_ne _ _ hjeq]
          exact hj j (by omega)
    · have hk1 : ¬ k < s₁.length := by rw [hl]; exact hk
      have hset1 : ∀ r : Typ, setE s₁ k r = .error .panicE := fun r => by
        simp [setE, hk1]
      have hset2 : ∀ r : Typ, setE s₂ k r = .error .panicE := fun r => by
        simp [setE, hk]
      simp [Bind.bind, Except.bind, hta, htb, hgt, hts, hset1, hset2]

/-- `classify` overwrites the whole type array before reading any of it,
so its result only depends on the text and the length of the scratch. -/
theorem classify_congr (text : List Nat) (ty₁ ty₂ : List Typ)
    (h : ty₁.length = ty₂.length) :
    classify text ty₁ = classify text ty₂ := by
  unfold classify
  rw [h]
  by_cases ha : ty₂.length = text.length
  · by_cases hb : text.length = 0
    · simp [assertR_pos ha, assertR, hb, Bind.bind, Except.bind]
    · have hlen : ty₂.length - 1 < ty₁.length := by omega
      have hlen' : ty₂.length - 1 < ty₂.length := by omega
      have hset1 : setE ty₁ (ty₂.length - 1) Typ.L =
          .ok (ty₁.set (ty₂.length - 1) Typ.L) := by simp [setE, hlen]
      have hset2 : setE ty₂ (ty₂.length - 1) Typ.L =
          .ok (ty₂.set (ty₂.length - 1) Typ.L) := by simp [setE, hlen']
      simp only [assertR_pos ha, assertR_pos hb, Bind.bind, Except.bind,
        hset1, hset2]
      unfold classifySubSlice classifySubSliceAt
      rw [List.length_set, List.length_set, h]
      apply classify_loop_congr text (ty₂.length - 1) _ _ (by simp [h])
      intro j hjk
      by_cases hje : ty₂.length - 1 = j
      · subst hje
        rw [List.get?_set_eq_of_lt _ hlen, List.get?_set_eq_of_lt _ hlen']
      · rw [List.get?_set_ne _ _ hje, List.get?_set_ne _ _ hje]
        have hj1 : ty₁.length ≤ j := by omega
        have hj2 : ty₂.length ≤ j := by omega
        rw [List.get?_eq_none.mpr hj1, List.get?_eq_none.mpr hj2]
  · simp [assertR, ha, Bind.bind, Except.bind]

/-- `l.map (fun _ => c)` only depends on the length. -/
theorem map_const_eq_replicate {α β : Type} (l : List α) (c : β) :
    l.map (fun _ => c) = List.replicate l.length c := by
  induction l with
  | nil => rfl
  | cons x xs ih => simp [List.replicate, ih]

/-- `induce` zero-fills the suffix array before reading it, so its
result only depends on its length. -/
theorem induce_congr (text : List Nat) (types : List Typ)
    (sa₁ sa₂ bk : List Nat) (h : sa₁.length = sa₂.length) :
    induce text types sa₁ bk = induce text types sa₂ bk := by
  unfold induce
  rw [map_const_eq_replicate, map_const_eq_replicate, h]

/-- One unfolding of `induced_sort` only depends on the lengths of the
suffix-array and type scratches, not on their contents. -/
theorem inducedSortBody_congr
    (recur : List Nat → List Nat → List Typ → List Nat →
      Res (List Nat × List Typ × List Nat))
    (text sa₁ sa₂ : List Nat) (ty₁ ty₂ : List Typ) (bk : List Nat)
    (hsa : sa₁.length = sa₂.length) (hty : ty₁.length = ty₂.length) :
    inducedSortBody recur text sa₁ ty₁ bk =
      inducedSortBody recur text sa₂ ty₂ bk := by
  unfold inducedSortBody
  rw [hsa, classify_congr text ty₁ ty₂ hty]
  congr 1
  funext _
  congr 1
  funext _
  congr 1
  funext τ
  rw [induce_congr text τ sa₁ sa₂ bk hsa]

/-- Claim C5 (amended): the result of `sais::sort` depends only on the
text and on the initial bucket contents (which the bucket-counting debug
assertion forces to be all zeroes anyway); the initial contents of the
suffix-array and type scratches are irrelevant.  The claim as stated —
that even the bucket contents may vary — fails: see
`c5_counterexample`. -/
theorem c5_deterministic (text sa₁ sa₂ : List Nat) (ty₁ ty₂ : List Typ)
    (bk : List Nat)
    (h1 : sa₁.length = text.length) (h2 : sa₂.length = text.length)
    (h3 : ty₁.length = text.length) (h4 : ty₂.length = text.length) :
    sort text sa₁ ty₁ bk = sort text sa₂ ty₂ bk := by
  unfold sort
  rw [h1, h2, h3, h4]
  have : inducedSort (text.length + 1) text sa₁ ty₁ bk =
      inducedSort (text.length + 1) text sa₂ ty₂ bk := by
    show inducedSortBody (inducedSort text.length) text sa₁ ty₁ bk =
      inducedSortBody (inducedSort text.length) text sa₂ ty₂ bk
    exact inducedSortBody_congr _ text sa₁ sa₂ ty₁ ty₂ bk (by omega) (by omega)
  rw [this]

/-- Witness for C5 (amended): two runs on `[0]` with different scratch
contents produce identical results. -/
theorem c5_deterministic_witness :
    sort [0] [7] [Typ.L] (List.replicate 256 0) =
      sort [0] [3] [Typ.S] (List.replicate 256 0) :=
  c5_deterministic [0] [7] [3] [Typ.L] [Typ.S] (List.replicate 256 0)
    (by decide) (by decide) (by decide) (by decide)

/-- Counterexample for C5 as stated: changing only the initial contents
of the bucket buffer (same correct length 256) turns a successful run on
`[0]` into a panic, so the final suffix-array contents of the two runs
are not equal. -/
theorem c5_counterexample :
    sort [0] [0] [Typ.S] (1 :: List.replicate 255 0) = .error .panicE ∧
    sort [0] [0] [Typ.S] (List.replicate 256 0) =
      .ok ([0], [Typ.L], List.replicate 256 0) ∧
    (.error .panicE : Res (List Nat × List Typ × List Nat)) ≠
      .ok ([0], [Typ.L], List.replicate 256 0) :=
  ⟨by decide, by decide, by decide⟩

/-!  Length and zeroing facts about the bucket machinery, leading to the
frame property of C9. -/

theorem bucketsCountGo_length :
    ∀ (text b b' : List Nat), bucketsCountGo text b = .ok b' →
      b'.length = b.length := by
  intro text
  induction text with
  | nil => intro b b' h; cases h; rfl
  | cons c rest ih =>
    intro b b' h
    unfold bucketsCountGo at h
    rw [res_bind_ok] at h
    obtain ⟨v, _, h⟩ := h
    rw [res_bind_ok] at h
    obtain ⟨b₁, hset, h⟩ := h
    rw [setE_ok] at hset
    obtain ⟨_, hb₁⟩ := hset
    subst hb₁
    have := ih _ _ h
    simpa using this

theorem bucketsCount_length {text b b' : List Nat}
    (h : bucketsCount text b = .ok b') : b'.length = b.length := by
  unfold bucketsCount at h
  rw [res_bind_ok] at h
  obtain ⟨_, _, h⟩ := h
  exact bucketsCountGo_length text b b' h

theorem bucketStarts_length : ∀ (s : Nat) (l : List Nat),
    (bucketStarts s l).length = l.length := by
  intro s l
  induction l generalizing s with
  | nil => rfl
  | cons v rest ih => simp [bucketStarts, ih]

theorem bucketEnds_length : ∀ (s : Nat) (l : List Nat),
    (bucketEnds s l).length = l.length := by
  intro s l
  induction l generalizing s with
  | nil => rfl
  | cons v rest ih => simp [bucketEnds, ih]

theorem makeStarts_length {text b b' : List Nat}
    (h : makeStarts text b = .ok b') : b'.length = b.length := by
  unfold makeStarts at h
  rw [res_bind_ok] at h
  obtain ⟨b₁, hc, h⟩ := h
  cases h
  rw [bucketStarts_length]
  exact bucketsCount_length hc

theorem makeEnds_length {text b b' : List Nat}
    (h : makeEnds text b = .ok b') : b'.length = b.length := by
  unfold makeEnds at h
  rw [res_bind_ok] at h
  obtain ⟨b₁, hc, h⟩ := h
  cases h
  rw [bucketEnds_length]
  exact bucketsCount_length hc

theorem bNext_length {b : List Nat} {c : Nat} {p : Nat × List Nat}
    (h : bNext b c = .ok p) : p.2.length = b.length := by
  unfold bNext at h
  rw [res_bind_ok] at h
  obtain ⟨v, _, h⟩ := h
  rw [res_bind_ok] at h
  obtain ⟨b₁, hset, h⟩ := h
  cases h
  rw [setE_ok] at hset
  obtain ⟨_, hb₁⟩ := hset
  simp [hb₁]

theorem bNextReverse_length {b : List Nat} {c : Nat} {p : Nat × List Nat}
    (h : bNextReverse b c = .ok p) : p.2.length = b.length := by
  unfold bNextReverse at h
  rw [res_bind_ok] at h
  obtain ⟨v, _, h⟩ := h
  rw [res_bind_ok] at h
  obtain ⟨_, _, h⟩ := h
  rw [res_bind_ok] at h
  obtain ⟨b₁, hset, h⟩ := h
  cases h
  rw [setE_ok] at hset
  obtain ⟨_, hb₁⟩ := hset
  simp [hb₁]

theorem suffixBucketNext_length {text b : List Nat} {s : Nat}
    {p : Nat × List Nat} (h : suffixBucketNext text b s = .ok p) :
    p.2.length = b.length := by
  unfold suffixBucketNext at h
  rw [res_bind_ok] at h
  obtain ⟨c, _, h⟩ := h
  exact bNext_length h

theorem suffixBucketNextReverse_length {text b : List Nat} {s : Nat}
    {p : Nat × List Nat} (h : suffixBucketNextReverse text b s = .ok p) :
    p.2.length = b.length := by
  unfold suffixBucketNextReverse at h
  rw [res_bind_ok] at h
  obtain ⟨c, _, h⟩ := h
  exact bNextReverse_length h

theorem intoCleared_eq (b : List Nat) :
    intoCleared b = List.replicate b.length 0 :=
  map_const_eq_replicate b 0

theorem listResize_length {α : Type} (l : List α) (n : Nat) (v : α) :
    (listResize l n v).length = n := by
  unfold listResize
  by_cases h : n ≤ l.length <;> simp [h] <;> omega

theorem induceLsStepL_length {text : List Nat} {types : List Typ} {i : Nat}
    {st st' : List Nat × List Nat}
    (h : induceLsStepL text types i st = .ok st') :
    st'.1.length = st.1.length := by
  unfold induceLsStepL at h
  rw [res_bind_ok] at h
  obtain ⟨s, _, h⟩ := h
  by_cases hc : s ≠ NIL ∧ s ≠ 0
  · rw [if_pos hc] at h
    rw [res_bind_ok] at h
    obtain ⟨t, _, h⟩ := h
    cases t with
    | L =>
      rw [res_bind_ok] at h
      obtain ⟨p, hnext, h⟩ := h
      rw [res_bind_ok] at h
      obtain ⟨sfx, _, h⟩ := h
      cases h
      exact suffixBucketNext_length hnext
    | S => cases h; rfl
  · rw [if_neg hc] at h
    cases h; rfl

theorem induceLsStepS_length {text : List Nat} {types : List Typ} {i : Nat}
    {st st' : List Nat × List Nat}
    (h : induceLsStepS text types i st = .ok st') :
    st'.1.length = st.1.length := by
  unfold induceLsStepS at h
  rw [res_bind_ok] at h
  obtain ⟨s, _, h⟩ := h
  by_cases hc : s ≠ NIL ∧ s ≠ 0
  · rw [if_pos hc] at h
    rw [res_bind_ok] at h
    obtain ⟨t, _, h⟩ := h
    cases t with
    | S =>
      rw [res_bind_ok] at h
      obtain ⟨p, hnext, h⟩ := h
      rw [res_bind_ok] at h
      obtain ⟨sfx, _, h⟩ := h
      cases h
      exact suffixBucketNextReverse_length hnext
    | L => cases h; rfl
  · rw [if_neg hc] at h
    cases h; rfl

theorem induceLsLast_length {text : List Nat} {types : List Typ}
    {b sfx : List Nat} {pr : List Nat × List Nat}
    (h : induceLsLast text types b sfx = .ok pr) :
    pr.1.length = b.length := by
  unfold induceLsLast at h
  rw [res_bind_ok] at h
  obtain ⟨_, _, h⟩ := h
  rw [res_bind_ok] at h
  obtain ⟨t, _, h⟩ := h
  cases t with
  | L =>
    rw [res_bind_ok] at h
    obtain ⟨p, hnext, h⟩ := h
    rw [res_bind_ok] at h
    obtain ⟨sfx₁, _, h⟩ := h
    cases h
    exact suffixBucketNext_length hnext
  | S => cases h; rfl

/-- `induce_ls` finishes with `into_cleared`, so it always hands back a
zeroed bucket buffer of the original length. -/
theorem induceLs_buckets {text : List Nat} {types : List Typ}
    {bk sfx : List Nat} {pr : List Nat × List Nat}
    (h : induceLs text types bk sfx = .ok pr) :
    pr.1 = List.replicate bk.length 0 := by
  unfold induceLs at h
  rw [res_bind_ok] at h
  obtain ⟨b₁, hmk, h⟩ := h
  rw [res_bind_ok] at h
  obtain ⟨st₁, hst₁, h⟩ := h
  rw [res_bind_ok] at h
  obtain ⟨st₂, hst₂, h⟩ := h
  rw [res_bind_ok] at h
  obtain ⟨b₂, hmk₂, h⟩ := h
  rw [res_bind_ok] at h
  obtain ⟨st₃, hst₃, h⟩ := h
  cases h
  -- trace the bucket length through every stage
  have l₁ : b₁.length = bk.length := makeStarts_length hmk
  have l₂ : st₁.1.length = b₁.length := induceLsLast_length hst₁
  have l₃ : st₂.1.length = st₁.1.length :=
    foldUpM_inv (fun st => st.1.length = st₁.1.length)
      (fun i s s' hs hstep => (induceLsStepL_length hstep).trans hs)
      _ _ _ _ rfl hst₂
  have l₄ : b₂.length = st₂.1.length := by
    have := makeEnds_length hmk₂
    rw [this, intoCleared_eq, List.length_replicate]
  have l₅ : st₃.1.length = b₂.length :=
    foldDownM_inv (fun st => st.1.length = b₂.length)
      (fun i s s' hs hstep => (induceLsStepS_length hstep).trans hs)
      _ _ _ rfl hst₃
  rw [intoCleared_eq, l₅, l₄, l₃, l₂, l₁]

theorem induceSeedStep_length {text : List Nat} {types : List Typ}
    {i : Nat} {st st' : List Nat × List Nat × Nat × Option Nat}
    (h : induceSeedStep text types i st = .ok st') :
    st'.1.length = st.1.length := by
  unfold induceSeedStep at h
  rw [res_bind_ok] at h
  obtain ⟨il, _, h⟩ := h
  cases il with
  | true =>
    simp only [if_pos] at h
    rw [res_bind_ok] at h
    obtain ⟨p, hnext, h⟩ := h
    rw [res_bind_ok] at h
    obtain ⟨sfx, _, h⟩ := h
    cases h
    exact suffixBucketNextReverse_length hnext
  | false => cases h; rfl

/-- `induce` always hands back a zeroed bucket buffer of the original
length (all three of its exits pass through `into_cleared` or
`induce_ls`). -/
theorem induce_buckets {text : List Nat} {types : List Typ}
    {sa bk : List Nat} {tr : List Nat × List Nat × Option Reduced}
    (h : induce text types sa bk = .ok tr) :
    tr.1 = List.replicate bk.length 0 := by
  unfold induce at h
  rw [res_bind_ok] at h
  obtain ⟨_, _, h⟩ := h
  rw [res_bind_ok] at h
  obtain ⟨b₁, hmk, h⟩ := h
  rw [res_bind_ok] at h
  obtain ⟨st, hseed, h⟩ := h
  obtain ⟨b₂, sfx₂, cnt, lastLms⟩ := st
  dsimp only at h
  have l₁ : b₁.length = bk.length := makeEnds_length hmk
  have l₂ : b₂.length = b₁.length :=
    foldUpM_inv (fun st => st.1.length = b₁.length)
      (fun i s s' hs hstep => (induceSeedStep_length hstep).trans hs)
      _ _ _ _ rfl hseed
  have hclear : intoCleared b₂ = List.replicate bk.length 0 := by
    rw [intoCleared_eq, l₂, l₁]
  by_cases hc : cnt > 1
  · rw [if_pos hc] at h
    rw [res_bind_ok] at h
    obtain ⟨pr, hls, h⟩ := h
    rw [res_bind_ok] at h
    obtain ⟨r, _, h⟩ := h
    rw [res_bind_ok] at h
    obtain ⟨_, _, h⟩ := h
    cases h
    have := induceLs_buckets hls
    rw [this, hclear, List.length_replicate]
  · rw [if_neg hc] at h
    by_cases hc1 : cnt = 1
    · rw [if_pos hc1] at h
      rw [res_bind_ok] at h
      obtain ⟨lms, _, h⟩ := h
      rw [res_bind_ok] at h
      obtain ⟨_, _, h⟩ := h
      cases h
      exact hclear
    · rw [if_neg hc1] at h
      cases h
      exact hclear

/-- The recursion branch of the driver restores the bucket buffer to its
length at entry and clears it, whatever the recursive call did. -/
theorem lmsRecurse_buckets
    {recur : List Nat → List Nat → List Typ → List Nat →
      Res (List Nat × List Typ × List Nat)}
    {text : List Nat} {types : List Typ} {b : List Nat} {r : Reduced}
    {tr : List Nat × List Typ × List Nat}
    (h : lmsRecurse recur text types b r = .ok tr) :
    tr.2.2 = List.replicate b.length 0 := by
  unfold lmsRecurse at h
  rw [res_bind_ok] at h
  obtain ⟨rec, hrec, h⟩ := h
  obtain ⟨lms₁, typ₁, b₁⟩ := rec
  rw [res_bind_ok] at h
  obtain ⟨_, _, h⟩ := h
  rw [res_bind_ok] at h
  obtain ⟨ty₂, _, h⟩ := h
  rw [res_bind_ok] at h
  obtain ⟨si, _, h⟩ := h
  rw [res_bind_ok] at h
  obtain ⟨lms₂, _, h⟩ := h
  cases h
  rw [map_const_eq_replicate, listResize_length]

/-- The finishing phase returns a zeroed bucket buffer of its input
length. -/
theorem finishLms_buckets {text : List Nat} {types : List Typ}
    {b lmsSorted : List Nat} {lmsCount saLen : Nat}
    {out : List Nat × List Typ × List Nat}
    (h : finishLms text types b lmsSorted lmsCount saLen = .ok out) :
    out.2.2 = List.replicate b.length 0 := by
  unfold finishLms at h
  rw [res_bind_ok] at h
  obtain ⟨_, _, h⟩ := h
  rw [res_bind_ok] at h
  obtain ⟨b₂, hmk, h⟩ := h
  rw [res_bind_ok] at h
  obtain ⟨st, hfold, h⟩ := h
  rw [res_bind_ok] at h
  obtain ⟨pr, hls, h⟩ := h
  cases h
  have l₂ : b₂.length = b.length := makeEnds_length hmk
  have l₃ : st.1.length = b.length := by
    refine foldDownM_inv (fun st => st.1.length = b.length)
      (fun i s s' hs hstep => ?_) _ _ _ l₂ hfold
    show s'.1.length = b.length
    unfold placeLmsStep at hstep
    rw [res_bind_ok] at hstep
    obtain ⟨s₀, _, hstep⟩ := hstep
    rw [res_bind_ok] at hstep
    obtain ⟨sa₁, _, hstep⟩ := hstep
    rw [res_bind_ok] at hstep
    obtain ⟨p, hnext, hstep⟩ := hstep
    rw [res_bind_ok] at hstep
    obtain ⟨sa₂, _, hstep⟩ := hstep
    cases hstep
    rw [suffixBucketNextReverse_length hnext]
    exact hs
  have := induceLs_buckets hls
  rw [this, intoCleared_eq, List.length_replicate, l₃]

/-- One unfolding of the driver always returns a zeroed bucket buffer of
the caller's length, independent of what the recursive call does. -/
theorem inducedSortBody_buckets
    {recur : List Nat → List Nat → List Typ → List Nat →
      Res (List Nat × List Typ × List Nat)}
    {text sa : List Nat} {ty : List Typ} {bk : List Nat}
    {out : List Nat × List Typ × List Nat}
    (h : inducedSortBody recur text sa ty bk = .ok out) :
    out.2.2 = List.replicate bk.length 0 := by
  unfold inducedSortBody at h
  rw [res_bind_ok] at h
  obtain ⟨_, _, h⟩ := h
  rw [res_bind_ok] at h
  obtain ⟨_, _, h⟩ := h
  rw [res_bind_ok] at h
  obtain ⟨τ, _, h⟩ := h
  rw [res_bind_ok] at h
  obtain ⟨tr, hind, h⟩ := h
  obtain ⟨b₀, sa₀, reduced⟩ := tr
  have hb₀ : b₀ = List.replicate bk.length 0 := by
    have := induce_buckets hind
    exact this
  cases reduced with
  | none =>
    rw [res_bind_ok] at h
    obtain ⟨pr, hls, h⟩ := h
    cases h
    have := induceLs_buckets hls
    rw [this, hb₀, List.length_replicate]
  | some r =>
    rw [res_bind_ok] at h
    obtain ⟨_, _, h⟩ := h
    rw [res_bind_ok] at h
    obtain ⟨_, _, h⟩ := h
    dsimp only at h
    by_cases hcond : r.max_order < r.reduced_str.length - 1
    · rw [if_pos hcond] at h
      rw [res_bind_ok] at h
      obtain ⟨tri, htri, h⟩ := h
      obtain ⟨lmsSorted, ty₁, b₁⟩ := tri
      dsimp only at h
      have hb₁ : b₁.length = bk.length := by
        have := lmsRecurse_buckets htri
        simp only at this
        rw [this, List.length_replicate, hb₀, List.length_replicate]
      have := finishLms_buckets h
      rw [this, hb₁]
    · rw [if_neg hcond] at h
      rw [res_bind_ok] at h
      obtain ⟨tri, htri, h⟩ := h
      cases htri
      dsimp only at h
      have := finishLms_buckets h
      rw [this, hb₀, List.length_replicate]

/-- Claim C9: on every successful return of `sais::sort` the bucket
buffer has the length it had at the call and every element is zero. -/
theorem c9_buckets_restored (text sa : List Nat) (ty : List Typ)
    (bk : List Nat) (out : List Nat × List Typ × List Nat)
    (h : sort text sa ty bk = .ok out) :
    out.2.2.length = bk.length ∧ ∀ x ∈ out.2.2, x = 0 := by
  unfold sort at h
  rw [res_bind_ok] at h
  obtain ⟨_, _, h⟩ := h
  have : out.2.2 = List.replicate bk.length 0 := by
    cases htl : text.length with
    | zero =>
      rw [htl] at h
      exact inducedSortBody_buckets h
    | succ n =>
      rw [htl] at h
      exact inducedSortBody_buckets h
  rw [this]
  exact ⟨List.length_replicate _ _, fun x hx => List.eq_of_mem_replicate hx⟩

/-!  The ⌊n/2⌋ bound on the reduced string (C8, part 1). -/

/-- Indexed fold invariant for `foldUpM`. -/
theorem foldUpM_inv_idx {σ : Type} (P : Nat → σ → Prop) {f : Nat → σ → Res σ}
    (hf : ∀ i s s', P i s → f i s = .ok s' → P (i + 1) s') :
    ∀ k i s s', P i s → foldUpM f i k s = .ok s' → P (i + k) s' := by
  intro k
  induction k with
  | zero => intro i s s' hs h; cases h; exact hs
  | succ k ih =>
    intro i s s' hs h
    rw [show foldUpM f i (k+1) s = (f i s).bind (foldUpM f (i+1) k) from rfl] at h
    cases hfi : f i s with
    | error e => rw [hfi] at h; cases h
    | ok s₁ =>
      rw [hfi] at h
      have := ih (i+1) s₁ s' (hf i s s₁ hs hfi) h
      rw [show i + (k + 1) = i + 1 + k by omega]
      exact this

/-- `classify` preserves the length of the type scratch. -/
theorem classify_length {text : List Nat} {ty τ : List Typ}
    (h : classify text ty = .ok τ) : τ.length = text.length := by
  unfold classify at h
  rw [res_bind_ok] at h
  obtain ⟨_, ha, h⟩ := h
  rw [res_bind_ok] at h
  obtain ⟨_, _, h⟩ := h
  rw [res_bind_ok] at h
  obtain ⟨ty₁, hset, h⟩ := h
  rw [setE_ok] at hset
  obtain ⟨_, hty₁⟩ := hset
  rw [assertR_ok] at ha
  unfold classifySubSlice classifySubSliceAt at h
  have : τ.length = ty₁.length :=
    foldDownM_inv (fun s => s.length = ty₁.length)
      (fun i s s' hs hstep => by
        show s'.length = ty₁.length
        unfold classifyStep at hstep
        rw [res_bind_ok] at hstep
        obtain ⟨_, _, hstep⟩ := hstep
        rw [res_bind_ok] at hstep
        obtain ⟨_, _, hstep⟩ := hstep
        rw [res_bind_ok] at hstep
        obtain ⟨_, _, hstep⟩ := hstep
        rw [setE_ok] at hstep
        obtain ⟨_, hset'⟩ := hstep
        rw [hset', List.length_set]
        exact hs)
      _ _ _ rfl h
  rw [this, hty₁, List.length_set, ha]

/-- Setting one slot raises the count of a predicate by at most one. -/
theorem countP_set_le {α : Type} (p : α → Bool) :
    ∀ (l : List α) (i : Nat) (v : α),
      (l.set i v).countP p ≤ l.countP p + 1 := by
  intro l
  induction l with
  | nil => intro i v; simp [List.countP]
  | cons x xs ih =>
    intro i v
    cases i with
    | zero =>
      simp only [List.set]
      rw [List.countP_cons, List.countP_cons]
      by_cases hv : p v <;> by_cases hx : p x <;> simp [hv, hx] <;> omega
    | succ i =>
      simp only [List.set]
      rw [List.countP_cons, List.countP_cons]
      have := ih i v
      by_cases hx : p x <;> simp [hx] <;> omega

/-- A replicated NIL buffer has no entries different from NIL. -/
theorem countP_replicate_nil (n : Nat) :
    (List.replicate n NIL).countP (fun v => decide (v ≠ NIL)) = 0 := by
  induction n with
  | zero => rfl
  | succ n ih => rw [List.replicate, List.countP_cons]; simp [ih]

/-- The naming step writes exactly one slot of `rest`. -/
theorem reduceNamingStep_rest {text : List Nat} {types : List Typ}
    {suffix : Nat} {st st' : List Nat × Nat × List Nat × List Typ}
    (h : reduceNamingStep text types suffix st = .ok st') :
    ∃ ord, st'.1 = st.1.set (suffix / 2) ord := by
  unfold reduceNamingStep at h
  rw [res_bind_ok] at h
  obtain ⟨s₁, _, h⟩ := h
  rw [res_bind_ok] at h
  obtain ⟨_, _, h⟩ := h
  rw [res_bind_ok] at h
  obtain ⟨eqPrev, _, h⟩ := h
  rw [res_bind_ok] at h
  obtain ⟨rest₁, hset, h⟩ := h
  cases h
  rw [setE_ok] at hset
  obtain ⟨_, hr⟩ := hset
  exact ⟨_, hr⟩

/-- The naming loop adds at most one non-NIL entry per processed LMS
suffix. -/
theorem reduceNamingGo_count {text : List Nat} {types : List Typ} :
    ∀ (tail : List Nat) (st st' : List Nat × Nat × List Nat × List Typ),
      foldListM (reduceNamingStep text types) tail st = .ok st' →
      st'.1.countP (fun v => decide (v ≠ NIL)) ≤
        st.1.countP (fun v => decide (v ≠ NIL)) + tail.length := by
  intro tail
  induction tail with
  | nil => intro st st' h; cases h; simp
  | cons s rest ih =>
    intro st st' h
    rw [show foldListM (reduceNamingStep text types) (s :: rest) st =
        (reduceNamingStep text types s st).bind
          (foldListM (reduceNamingStep text types) rest) from rfl] at h
    cases hstep : reduceNamingStep text types s st with
    | error e => rw [hstep] at h; cases h
    | ok st₁ =>
      rw [hstep] at h
      obtain ⟨ord, hset⟩ := reduceNamingStep_rest hstep
      have h₁ := ih st₁ st' h
      have h₂ := countP_set_le (fun v => decide (v ≠ NIL)) st.1 (s / 2) ord
      rw [hset] at h₁
      simp only [List.length_cons]
      omega

theorem take_set_succ {α : Type} :
    ∀ (vs : List α) (w : Nat) (v : α), w < vs.length →
      (vs.set w v).take (w + 1) = vs.take w ++ [v] := by
  intro vs
  induction vs with
  | nil => intro w v h; cases h
  | cons x xs ih =>
    intro w v h
    cases w with
    | zero => rfl
    | succ w =>
      simp only [List.set, List.take, List.cons_append]
      rw [ih w v (by simpa using h)]

theorem drop_set_succ {α : Type} :
    ∀ (vs : List α) (w : Nat) (v : α),
      (vs.set w v).drop (w + 1) = vs.drop (w + 1) := by
  intro vs
  induction vs with
  | nil => intro w v; rfl
  | cons x xs ih =>
    intro w v
    cases w with
    | zero => rfl
    | succ w =>
      simp only [List.set, List.drop]
      exact ih w v

/-- Invariant run of the retain loop under a pure predicate: the front
of the array accumulates the filtered values in order, and everything
from the write offset onward keeps its original value. -/
theorem retain_loop_pure {α : Type} (q : α → Bool) (l : List α) :
    ∀ (k i : Nat) (vs : List α) (w : Nat),
      i + k = l.length → w ≤ i → vs.length = l.length →
      vs.take w = (l.take i).filter q →
      w = ((l.take i).filter q).length →
      vs.drop w = l.drop w →
      ∃ vs', foldUpM (retainStep (fun v => .ok (q v))) i k (vs, w) =
          .ok (vs', (l.filter q).length) ∧
        vs'.take (l.filter q).length = l.filter q ∧
        vs'.drop (l.filter q).length = l.drop (l.filter q).length ∧
        vs'.length = l.length := by
  intro k
  induction k with
  | zero =>
    intro i vs w hik hw hlen htake hwlen hdrop
    have hi : i = l.length := by omega
    subst hi
    rw [List.take_length] at htake hwlen
    refine ⟨vs, ?_, ?_, ?_, hlen⟩
    · rw [show foldUpM (retainStep (fun v => .ok (q v))) l.length 0 (vs, w) =
          .ok (vs, w) from rfl, hwlen]
    · rw [← hwlen]; exact htake
    · rw [← hwlen]; exact hdrop
  | succ k ih =>
    intro i vs w hik hw hlen htake hwlen hdrop
    have hi : i < l.length := by omega
    have hvi : vs.get? i = l.get? i := by
      have h1 : (vs.drop w).get? (i - w) = (l.drop w).get? (i - w) := by
        rw [hdrop]
      rw [List.get?_drop, List.get?_drop] at h1
      rwa [show w + (i - w) = i by omega] at h1
    have hgl : l.get? i = some (l.get ⟨i, hi⟩) := List.get?_eq_get hi
    set v := l.get ⟨i, hi⟩ with hv
    have hstep : retainStep (fun v => .ok (q v)) i (vs, w) =
        if q v then .ok (vs.set w v, w + 1) else .ok (vs, w) := by
      unfold retainStep getE
      rw [show (vs, w).1 = vs from rfl, hvi, hgl]
      have hwlt : w < vs.length := by omega
      by_cases hq : q v
      · simp [hq, Bind.bind, Except.bind, setE, hwlt]
      · simp [hq, Bind.bind, Except.bind]
    rw [show foldUpM (retainStep (fun v => .ok (q v))) i (k+1) (vs, w) =
        (retainStep (fun v => .ok (q v)) i (vs, w)).bind
          (foldUpM (retainStep (fun v => .ok (q v))) (i+1) k) from rfl, hstep]
    have htke : l.take (i + 1) = l.take i ++ [v] := by
      rw [List.take_succ]
      congr
      rw [← List.get?_eq_getElem?, hgl]
      rfl
    by_cases hq : q v
    · rw [if_pos hq]
      have hwlt : w < vs.length := by omega
      have h1 : (i + 1) + k = l.length := by omega
      have h2 : w + 1 ≤ i + 1 := by omega
      have h3 : (vs.set w v).length = l.length := by simp [hlen]
      have h4 : (vs.set w v).take (w + 1) = (l.take (i + 1)).filter q := by
        rw [take_set_succ vs w v hwlt, htake, htke, List.filter_append]
        simp [hq]
      have h5 : w + 1 = ((l.take (i + 1)).filter q).length := by
        rw [htke, List.filter_append, List.length_append, ← hwlen]
        simp [hq]
      have h6 : (vs.set w v).drop (w + 1) = l.drop (w + 1) := by
        rw [drop_set_succ]
        have := congrArg (List.drop 1) hdrop
        rwa [List.drop_drop, List.drop_drop] at this
      simpa [Bind.bind, Except.bind] using
        ih (i + 1) (vs.set w v) (w + 1) h1 h2 h3 h4 h5 h6
    · rw [if_neg hq]
      have h1 : (i + 1) + k = l.length := by omega
      have h2 : w ≤ i + 1 := by omega
      have h4 : vs.take w = (l.take (i + 1)).filter q := by
        rw [htake, htke, List.filter_append]
        simp [hq]
      have h5 : w = ((l.take (i + 1)).filter q).length := by
        rw [htke, List.filter_append, List.length_append, ← hwlen]
        simp [hq]
      simpa [Bind.bind, Except.bind] using
        ih (i + 1) vs w h1 h2 hlen h4 h5 hdrop

/-- `retain` under a pure predicate computes `filter`, leaving the tail
beyond the filtered block untouched. -/
theorem retainM_pure {α : Type} (q : α → Bool) (l : List α) :
    retainM (fun v => .ok (q v)) l =
      .ok (l.filter q, l.drop (l.filter q).length) := by
  obtain ⟨vs', hfold, htake, hdrop, hlen⟩ :=
    retain_loop_pure q l l.length 0 l 0 (by omega) (by omega) rfl
      (by simp) (by simp) rfl
  unfold retainM
  rw [hfold]
  simp [Bind.bind, Except.bind, htake, hdrop]

/-- `reduce` satisfies the size bound of the SA-IS analysis: at most
⌊n/2⌋ sorted LMS suffixes (the debug assertion), and the packed reduced
string is no longer than the LMS list, because the naming loop writes
one slot per LMS suffix into an all-NIL buffer. -/
theorem reduce_bounds {text : List Nat} {types : List Typ}
    {sfx : List Nat} {r : Reduced}
    (h : reduce text types sfx = .ok r) :
    r.lms_suffixes_sorted.length ≤ text.length / 2 ∧
    r.reduced_str.length ≤ r.lms_suffixes_sorted.length := by
  unfold reduce at h
  rw [res_bind_ok] at h
  obtain ⟨pr, _, h⟩ := h
  obtain ⟨lms, rest⟩ := pr
  dsimp only at h
  rw [res_bind_ok] at h
  obtain ⟨_, _, h⟩ := h
  rw [res_bind_ok] at h
  obtain ⟨_, hhalf, h⟩ := h
  rw [res_bind_ok] at h
  obtain ⟨pr₂, hnaming, h⟩ := h
  obtain ⟨rest₂, ord⟩ := pr₂
  dsimp only at h
  rw [res_bind_ok] at h
  obtain ⟨packed, hpacked, h⟩ := h
  cases h
  rw [assertR_ok] at hhalf
  refine ⟨hhalf, ?_⟩
  -- count the non-NIL entries of the named buffer
  have hcnt : rest₂.countP (fun v => decide (v ≠ NIL)) ≤ lms.length := by
    unfold reduceNaming at hnaming
    cases lms with
    | nil => cases hnaming
    | cons first tail =>
      rw [res_bind_ok] at hnaming
      obtain ⟨rest₁, hset₁, hnaming⟩ := hnaming
      rw [res_bind_ok] at hnaming
      obtain ⟨_, _, hnaming⟩ := hnaming
      rw [res_bind_ok] at hnaming
      obtain ⟨_, _, hnaming⟩ := hnaming
      rw [res_bind_ok] at hnaming
      obtain ⟨st, hfold, hnaming⟩ := hnaming
      cases hnaming
      rw [setE_ok] at hset₁
      obtain ⟨_, hrest₁⟩ := hset₁
      have h₁ := reduceNamingGo_count tail _ _ hfold
      have h₂ := countP_set_le (fun v => decide (v ≠ NIL))
        (rest.map fun _ => NIL) (first / 2) 0
      rw [map_const_eq_replicate, countP_replicate_nil] at h₂
      rw [hrest₁, map_const_eq_replicate] at h₁
      dsimp only at h₁ h₂
      simp only [List.length_cons]
      omega
  -- the packed string is exactly the non-NIL entries
  rw [retainM_pure (fun v => decide (v ≠ NIL)) rest₂] at hpacked
  cases hpacked
  simp only
  rw [← List.countP_eq_length_filter]
  exact hcnt

/-- The reduced problem built by `induce` has at most ⌊n/2⌋ characters:
the LMS list is bounded by the debug assertion in `reduce`, the packed
reduced string never exceeds the LMS list, and the one-LMS shortcut
requires a text of length at least 2. -/
theorem induce_reduced_half {text : List Nat} {types : List Typ}
    {sa bk : List Nat} {tr : List Nat × List Nat × Option Reduced}
    {r : Reduced} (hty : types.length = text.length)
    (h : induce text types sa bk = .ok tr) (hr : tr.2.2 = some r) :
    r.lms_suffixes_sorted.length ≤ text.length / 2 ∧
    r.reduced_str.length ≤ text.length / 2 ∧ 1 ≤ text.length := by
  unfold induce at h
  rw [res_bind_ok] at h
  obtain ⟨_, hne, h⟩ := h
  rw [assertR_ok] at hne
  have hn1 : 1 ≤ text.length := by omega
  rw [res_bind_ok] at h
  obtain ⟨b₁, _, h⟩ := h
  rw [res_bind_ok] at h
  obtain ⟨st, hseed, h⟩ := h
  obtain ⟨b₂, sfx₂, cnt, lastLms⟩ := st
  dsimp only at h
  by_cases hc : cnt > 1
  · rw [if_pos hc] at h
    rw [res_bind_ok] at h
    obtain ⟨pr, _, h⟩ := h
    rw [res_bind_ok] at h
    obtain ⟨r₀, hred, h⟩ := h
    rw [res_bind_ok] at h
    obtain ⟨_, _, h⟩ := h
    cases h
    simp only at hr
    cases hr
    obtain ⟨hb₁, hb₂⟩ := reduce_bounds hred
    exact ⟨hb₁, le_trans hb₂ hb₁, hn1⟩
  · rw [if_neg hc] at h
    by_cases hc1 : cnt = 1
    · rw [if_pos hc1] at h
      rw [res_bind_ok] at h
      obtain ⟨lms, _, h⟩ := h
      rw [res_bind_ok] at h
      obtain ⟨_, _, h⟩ := h
      cases h
      simp only at hr
      cases hr
      -- one LMS exists, so the text has length at least 2
      have hn2 : 2 ≤ text.length := by
        by_contra hlt
        have h0 : types.length - 1 = 0 := by omega
        rw [h0] at hseed
        rw [show foldUpM (induceSeedStep text types) 1 0
            (b₁, sa.map fun _ => 0, 0, none) =
            .ok (b₁, sa.map fun _ => 0, 0, none) from rfl] at hseed
        cases hseed
        omega
      simp only [List.length_cons, List.length_nil]
      omega
    · rw [if_neg hc1] at h
      cases h
      simp only at hr
      cases hr

/-!  Fuel never runs out inside one unfolding of the driver: every error
produced by the non-recursive code is a panic, not fuel exhaustion
(C8, part 2). -/

theorem nn_bind {α β : Type} {x : Res α} {f : α → Res β}
    (hx : x ≠ .error .nofuelE)
    (hf : ∀ a, x = .ok a → f a ≠ .error .nofuelE) :
    x >>= f ≠ .error .nofuelE := by
  cases x with
  | ok a => simpa [Bind.bind, Except.bind] using hf a rfl
  | error e => simpa [Bind.bind, Except.bind] using hx

theorem ok_ne_nofuel {α : Type} {a : α} :
    (.ok a : Res α) ≠ .error .nofuelE := by simp

theorem panic_ne_nofuel {α : Type} :
    (.error .panicE : Res α) ≠ .error .nofuelE := by simp

theorem unwrapO_ne_nofuel {α : Type} {o : Option α} :
    unwrapO o ≠ .error .nofuelE := by
  cases o <;> simp [unwrapO]

theorem foldUpM_nn {σ : Type} {f : Nat → σ → Res σ}
    (hf : ∀ i s, f i s ≠ .error .nofuelE) :
    ∀ k i s, foldUpM f i k s ≠ .error .nofuelE := by
  intro k
  induction k with
  | zero => intro i s; exact ok_ne_nofuel
  | succ k ih =>
    intro i s
    exact nn_bind (hf i s) fun a _ => ih (i+1) a

theorem foldDownM_nn {σ : Type} {f : Nat → σ → Res σ}
    (hf : ∀ i s, f i s ≠ .error .nofuelE) :
    ∀ k s, foldDownM f k s ≠ .error .nofuelE := by
  intro k
  induction k with
  | zero => intro s; exact ok_ne_nofuel
  | succ k ih =>
    intro s
    exact nn_bind (hf k s) fun a _ => ih a

theorem foldListM_nn {α σ : Type} {f : α → σ → Res σ}
    (hf : ∀ x s, f x s ≠ .error .nofuelE) :
    ∀ l s, foldListM f l s ≠ .error .nofuelE := by
  intro l
  induction l with
  | nil => intro s; exact ok_ne_nofuel
  | cons x xs ih =>
    intro s
    exact nn_bind (hf x s) fun a _ => ih a

theorem classifyStep_nn {text : List Nat} {i : Nat} {ty : List Typ} :
    classifyStep text i ty ≠ .error .nofuelE := by
  unfold classifyStep
  refine nn_bind getE_ne_nofuel fun a _ => ?_
  refine nn_bind getE_ne_nofuel fun b _ => ?_
  refine nn_bind getE_ne_nofuel fun t _ => ?_
  exact setE_ne_nofuel

theorem classify_nn {text : List Nat} {ty : List Typ} :
    classify text ty ≠ .error .nofuelE := by
  unfold classify
  refine nn_bind assertR_ne_nofuel fun _ _ => ?_
  refine nn_bind assertR_ne_nofuel fun _ _ => ?_
  refine nn_bind setE_ne_nofuel fun ty₁ _ => ?_
  exact foldDownM_nn (fun i s => classifyStep_nn) _ _

theorem bucketsCountGo_nn :
    ∀ {text b : List Nat}, bucketsCountGo text b ≠ .error .nofuelE := by
  intro text
  induction text with
  | nil => intro b; exact ok_ne_nofuel
  | cons c rest ih =>
    intro b
    unfold bucketsCountGo
    refine nn_bind getE_ne_nofuel fun v _ => ?_
    refine nn_bind setE_ne_nofuel fun b₁ _ => ?_
    exact ih

theorem bucketsCount_nn {text b : List Nat} :
    bucketsCount text b ≠ .error .nofuelE := by
  unfold bucketsCount
  exact nn_bind assertR_ne_nofuel fun _ _ => bucketsCountGo_nn

theorem makeStarts_nn {text b : List Nat} :
    makeStarts text b ≠ .error .nofuelE := by
  unfold makeStarts
  exact nn_bind bucketsCount_nn fun _ _ => ok_ne_nofuel

theorem makeEnds_nn {text b : List Nat} :
    makeEnds text b ≠ .error .nofuelE := by
  unfold makeEnds
  exact nn_bind bucketsCount_nn fun _ _ => ok_ne_nofuel

theorem bNext_nn {b : List Nat} {c : Nat} : bNext b c ≠ .error .nofuelE := by
  unfold bNext
  refine nn_bind getE_ne_nofuel fun v _ => ?_
  exact nn_bind setE_ne_nofuel fun _ _ => ok_ne_nofuel

theorem bNextReverse_nn {b : List Nat} {c : Nat} :
    bNextReverse b c ≠ .error .nofuelE := by
  unfold bNextReverse
  refine nn_bind getE_ne_nofuel fun v _ => ?_
  refine nn_bind assertR_ne_nofuel fun _ _ => ?_
  exact nn_bind setE_ne_nofuel fun _ _ => ok_ne_nofuel

theorem suffixBucketNext_nn {text b : List Nat} {s : Nat} :
    suffixBucketNext text b s ≠ .error .nofuelE := by
  unfold suffixBucketNext
  exact nn_bind getE_ne_nofuel fun _ _ => bNext_nn

theorem suffixBucketNextReverse_nn {text b : List Nat} {s : Nat} :
    suffixBucketNextReverse text b s ≠ .error .nofuelE := by
  unfold suffixBucketNextReverse
  exact nn_bind getE_ne_nofuel fun _ _ => bNextReverse_nn

theorem isLms_nn {types : List Typ} {s : Nat} :
    isLms types s ≠ .error .nofuelE := by
  unfold isLms
  refine nn_bind assertR_ne_nofuel fun _ _ => ?_
  refine nn_bind getE_ne_nofuel fun a _ => ?_
  exact nn_bind getE_ne_nofuel fun b _ => ok_ne_nofuel

theorem lmsSubstringGoF_nn {text : List Nat} {types : List Typ}
    {index : Nat} :
    ∀ fuel i, lmsSubstringGoF text types index fuel i ≠ .error .nofuelE := by
  intro fuel
  induction fuel with
  | zero => intro i; exact ok_ne_nofuel
  | succ fuel ih =>
    intro i
    unfold lmsSubstringGoF
    by_cases hi : i < text.length
    · rw [if_pos hi]
      refine nn_bind isLms_nn fun b _ => ?_
      cases b with
      | true => simp only [if_pos]; exact ok_ne_nofuel
      | false =>
        simp only [Bool.false_eq_true, if_neg, not_false_iff]
        exact ih (i + 1)
    · rw [if_neg hi]
      exact ok_ne_nofuel

theorem lmsSubstring_nn {index : Nat} {text : List Nat} {types : List Typ} :
    lmsSubstring index text types ≠ .error .nofuelE := by
  unfold lmsSubstring
  refine nn_bind assertR_ne_nofuel fun _ _ => ?_
  refine nn_bind assertR_ne_nofuel fun _ _ => ?_
  exact lmsSubstringGoF_nn _ _

theorem lmsSubstringsEq_nn {l : List Nat} {lt : List Typ} {r : List Nat}
    {rt : List Typ} : lmsSubstringsEq l lt r rt ≠ .error .nofuelE := by
  unfold lmsSubstringsEq
  refine nn_bind assertR_ne_nofuel fun _ _ => ?_
  refine nn_bind assertR_ne_nofuel fun _ _ => ?_
  split
  · exact ok_ne_nofuel
  · exact ok_ne_nofuel

theorem retainStep_nn {α : Type} {pred : α → Res Bool} {i : Nat}
    {st : List α × Nat} (hp : ∀ v, pred v ≠ .error .nofuelE) :
    retainStep pred i st ≠ .error .nofuelE := by
  unfold retainStep
  refine nn_bind getE_ne_nofuel fun v _ => ?_
  refine nn_bind (hp v) fun keep _ => ?_
  split
  · exact nn_bind setE_ne_nofuel fun _ _ => ok_ne_nofuel
  · exact ok_ne_nofuel

theorem retainM_nn {α : Type} {pred : α → Res Bool} {l : List α}
    (hp : ∀ v, pred v ≠ .error .nofuelE) :
    retainM pred l ≠ .error .nofuelE := by
  unfold retainM
  refine nn_bind (foldUpM_nn (fun i s => retainStep_nn hp) _ _ _)
    fun st _ => ok_ne_nofuel

theorem reduceNamingStep_nn {text : List Nat} {types : List Typ}
    {suffix : Nat} {st : List Nat × Nat × List Nat × List Typ} :
    reduceNamingStep text types suffix st ≠ .error .nofuelE := by
  unfold reduceNamingStep
  refine nn_bind lmsSubstring_nn fun s _ => ?_
  refine nn_bind assertR_ne_nofuel fun _ _ => ?_
  refine nn_bind lmsSubstringsEq_nn fun e _ => ?_
  exact nn_bind setE_ne_nofuel fun _ _ => ok_ne_nofuel

theorem reduceNaming_nn {text : List Nat} {types : List Typ}
    {lms rest : List Nat} :
    reduceNaming text types lms rest ≠ .error .nofuelE := by
  unfold reduceNaming
  cases lms with
  | nil => exact panic_ne_nofuel
  | cons first tail =>
    refine nn_bind setE_ne_nofuel fun r₁ _ => ?_
    refine nn_bind lmsSubstring_nn fun s _ => ?_
    refine nn_bind assertR_ne_nofuel fun _ _ => ?_
    refine nn_bind (foldListM_nn (fun x s => reduceNamingStep_nn) _ _)
      fun st _ => ok_ne_nofuel

theorem reduce_nn {text : List Nat} {types : List Typ} {sfx : List Nat} :
    reduce text types sfx ≠ .error .nofuelE := by
  unfold reduce
  refine nn_bind (retainM_nn ?_) fun pr _ => ?_
  · intro v
    split
    · exact ok_ne_nofuel
    · exact isLms_nn
  · refine nn_bind assertR_ne_nofuel fun _ _ => ?_
    refine nn_bind assertR_ne_nofuel fun _ _ => ?_
    refine nn_bind reduceNaming_nn fun pr₂ _ => ?_
    refine nn_bind (retainM_nn fun v => ok_ne_nofuel) fun pk _ => ok_ne_nofuel

theorem induceLsStepL_nn {text : List Nat} {types : List Typ} {i : Nat}
    {st : List Nat × List Nat} :
    induceLsStepL text types i st ≠ .error .nofuelE := by
  unfold induceLsStepL
  refine nn_bind getE_ne_nofuel fun s _ => ?_
  split
  · refine nn_bind getE_ne_nofuel fun t _ => ?_
    cases t
    · refine nn_bind suffixBucketNext_nn fun p _ => ?_
      exact nn_bind setE_ne_nofuel fun _ _ => ok_ne_nofuel
    · exact ok_ne_nofuel
  · exact ok_ne_nofuel

theorem induceLsStepS_nn {text : List Nat} {types : List Typ} {i : Nat}
    {st : List Nat × List Nat} :
    induceLsStepS text types i st ≠ .error .nofuelE := by
  unfold induceLsStepS
  refine nn_bind getE_ne_nofuel fun s _ => ?_
  split
  · refine nn_bind getE_ne_nofuel fun t _ => ?_
    cases t
    · exact ok_ne_nofuel
    · refine nn_bind suffixBucketNextReverse_nn fun p _ => ?_
      exact nn_bind setE_ne_nofuel fun _ _ => ok_ne_nofuel
  · exact ok_ne_nofuel

theorem induceLsLast_nn {text : List Nat} {types : List Typ}
    {b sfx : List Nat} : induceLsLast text types b sfx ≠ .error .nofuelE := by
  unfold induceLsLast
  refine nn_bind assertR_ne_nofuel fun _ _ => ?_
  refine nn_bind getE_ne_nofuel fun t _ => ?_
  cases t
  · refine nn_bind suffixBucketNext_nn fun p _ => ?_
    exact nn_bind setE_ne_nofuel fun _ _ => ok_ne_nofuel
  · exact ok_ne_nofuel

theorem induceLs_nn {text : List Nat} {types : List Typ} {bk sfx : List Nat} :
    induceLs text types bk sfx ≠ .error .nofuelE := by
  unfold induceLs
  refine nn_bind makeStarts_nn fun b₁ _ => ?_
  refine nn_bind induceLsLast_nn fun st₁ _ => ?_
  obtain ⟨b₂, s₂⟩ := st₁
  refine nn_bind (foldUpM_nn (fun i s => induceLsStepL_nn) _ _ _)
    fun st₂ _ => ?_
  obtain ⟨b₃, s₃⟩ := st₂
  refine nn_bind makeEnds_nn fun b₄ _ => ?_
  refine nn_bind (foldDownM_nn (fun i s => induceLsStepS_nn) _ _)
    fun st₃ _ => ?_
  obtain ⟨b₅, s₅⟩ := st₃
  exact ok_ne_nofuel

theorem induceSeedStep_nn {text : List Nat} {types : List Typ} {s : Nat}
    {st : List Nat × List Nat × Nat × Option Nat} :
    induceSeedStep text types s st ≠ .error .nofuelE := by
  unfold induceSeedStep
  refine nn_bind isLms_nn fun il _ => ?_
  split
  · refine nn_bind suffixBucketNextReverse_nn fun p _ => ?_
    exact nn_bind setE_ne_nofuel fun _ _ => ok_ne_nofuel
  · exact ok_ne_nofuel

theorem induce_nn {text : List Nat} {types : List Typ} {sa bk : List Nat} :
    induce text types sa bk ≠ .error .nofuelE := by
  unfold induce
  refine nn_bind assertR_ne_nofuel fun _ _ => ?_
  refine nn_bind makeEnds_nn fun b₁ _ => ?_
  refine nn_bind (foldUpM_nn (fun i s => induceSeedStep_nn) _ _ _)
    fun st _ => ?_
  obtain ⟨b₂, sfx₂, cnt, lastLms⟩ := st
  dsimp only
  split
  · refine nn_bind induceLs_nn fun pr _ => ?_
    obtain ⟨b₃, s₃⟩ := pr
    refine nn_bind reduce_nn fun r _ => ?_
    exact nn_bind assertR_ne_nofuel fun _ _ => ok_ne_nofuel
  · split
    · refine nn_bind unwrapO_ne_nofuel fun lms _ => ?_
      exact nn_bind assertR_ne_nofuel fun _ _ => ok_ne_nofuel
    · exact ok_ne_nofuel

theorem gatherLmsStep_nn {types : List Typ} {s : Nat} {st : List Nat × Nat} :
    gatherLmsStep types s st ≠ .error .nofuelE := by
  unfold gatherLmsStep
  refine nn_bind isLms_nn fun il _ => ?_
  split
  · exact nn_bind setE_ne_nofuel fun _ _ => ok_ne_nofuel
  · exact ok_ne_nofuel

theorem translateStep_nn {si : List Nat} {i : Nat} {sa : List Nat} :
    translateStep si i sa ≠ .error .nofuelE := by
  unfold translateStep
  refine nn_bind getE_ne_nofuel fun v _ => ?_
  refine nn_bind getE_ne_nofuel fun w _ => ?_
  exact setE_ne_nofuel

theorem placeLmsStep_nn {text : List Nat} {i : Nat}
    {st : List Nat × List Nat} :
    placeLmsStep text i st ≠ .error .nofuelE := by
  unfold placeLmsStep
  refine nn_bind getE_ne_nofuel fun s _ => ?_
  refine nn_bind setE_ne_nofuel fun sa₁ _ => ?_
  refine nn_bind suffixBucketNextReverse_nn fun p _ => ?_
  exact nn_bind setE_ne_nofuel fun _ _ => ok_ne_nofuel

theorem finishLms_nn {text : List Nat} {types : List Typ}
    {b lmsSorted : List Nat} {lmsCount saLen : Nat} :
    finishLms text types b lmsSorted lmsCount saLen ≠ .error .nofuelE := by
  unfold finishLms
  refine nn_bind assertR_ne_nofuel fun _ _ => ?_
  refine nn_bind makeEnds_nn fun b₁ _ => ?_
  refine nn_bind (foldDownM_nn (fun i s => placeLmsStep_nn) _ _)
    fun st _ => ?_
  obtain ⟨b₂, s₂⟩ := st
  refine nn_bind induceLs_nn fun pr _ => ?_
  obtain ⟨b₃, s₃⟩ := pr
  exact ok_ne_nofuel

theorem lmsRecurse_nn
    {recur : List Nat → List Nat → List Typ → List Nat →
      Res (List Nat × List Typ × List Nat)}
    {text : List Nat} {types : List Typ} {b : List Nat} {r : Reduced}
    (hrec : ∀ s y bb, recur r.reduced_str s y bb ≠ .error .nofuelE) :
    lmsRecurse recur text types b r ≠ .error .nofuelE := by
  unfold lmsRecurse
  refine nn_bind (hrec _ _ _) fun tri _ => ?_
  obtain ⟨lms₁, ty₁, b₁⟩ := tri
  refine nn_bind assertR_ne_nofuel fun _ _ => ?_
  refine nn_bind (foldDownM_nn (fun i s => classifyStep_nn) _ _)
    fun ty₂ _ => ?_
  refine nn_bind (foldUpM_nn (fun i s => gatherLmsStep_nn) _ _ _)
    fun si _ => ?_
  obtain ⟨si₁, off⟩ := si
  refine nn_bind (foldUpM_nn (fun i s => translateStep_nn) _ _ _)
    fun lms₂ _ => ok_ne_nofuel

theorem inducedSortBody_nn
    {recur : List Nat → List Nat → List Typ → List Nat →
      Res (List Nat × List Typ × List Nat)}
    {text sa : List Nat} {ty : List Typ} {bk : List Nat}
    (hrec : ∀ (t s : List Nat) (y : List Typ) (b : List Nat),
      t.length < text.length → recur t s y b ≠ .error .nofuelE) :
    inducedSortBody recur text sa ty bk ≠ .error .nofuelE := by
  unfold inducedSortBody
  refine nn_bind assertR_ne_nofuel fun _ _ => ?_
  refine nn_bind assertR_ne_nofuel fun _ _ => ?_
  refine nn_bind classify_nn fun τ hτ => ?_
  refine nn_bind induce_nn fun tr htr => ?_
  obtain ⟨b₀, sa₀, reduced⟩ := tr
  cases reduced with
  | none =>
    dsimp only
    refine nn_bind induceLs_nn fun pr _ => ?_
    obtain ⟨b₁, s₁⟩ := pr
    exact ok_ne_nofuel
  | some r =>
    dsimp only
    refine nn_bind assertR_ne_nofuel fun _ _ => ?_
    refine nn_bind assertR_ne_nofuel fun _ _ => ?_
    have hred : r.reduced_str.length < text.length := by
      have hty : τ.length = text.length := classify_length hτ
      obtain ⟨_, h2, h3⟩ := induce_reduced_half hty htr rfl
      omega
    split
    · refine nn_bind (lmsRecurse_nn fun s y bb => hrec _ s y bb hred)
        fun tri _ => ?_
      obtain ⟨lms₁, ty₁, b₁⟩ := tri
      exact finishLms_nn
    · refine nn_bind ok_ne_nofuel fun tri _ => ?_
      obtain ⟨lms₁, ty₁, b₁⟩ := tri
      exact finishLms_nn

/-- With fuel exceeding the text length, `induced_sort` never exhausts
its fuel: each recursion level at least halves the text. -/
theorem inducedSort_nn :
    ∀ (fuel : Nat) (text sa : List Nat) (ty : List Typ) (bk : List Nat),
      text.length < fuel →
      inducedSort fuel text sa ty bk ≠ .error .nofuelE := by
  intro fuel
  induction fuel with
  | zero => intro text sa ty bk h; omega
  | succ fuel ih =>
    intro text sa ty bk h
    show inducedSortBody (inducedSort fuel) text sa ty bk ≠ .error .nofuelE
    refine inducedSortBody_nn fun t s y b hlt => ?_
    exact ih t s y b (by omega)

/-- Claim C8: the reduced string handed to the recursive call of
`induced_sort` has length at most ⌊n/2⌋ (and the text is non-empty), so
the recursion is well-founded; concretely, fuel `n + 1` never runs out
in the fuel-indexed model. -/
theorem c8_reduced_half_and_terminates :
    (∀ (text : List Nat) (types : List Typ) (sa bk : List Nat)
        (tr : List Nat × List Nat × Option Reduced) (r : Reduced),
      types.length = text.length →
      induce text types sa bk = .ok tr → tr.2.2 = some r →
      r.lms_suffixes_sorted.length ≤ text.length / 2 ∧
      r.reduced_str.length ≤ text.length / 2 ∧ 1 ≤ text.length) ∧
    (∀ (text sa : List Nat) (ty : List Typ) (bk : List Nat),
      inducedSort (text.length + 1) text sa ty bk ≠ .error .nofuelE) :=
  ⟨fun _ _ _ _ _ _ hty h hr => induce_reduced_half hty h hr,
   fun text sa ty bk => inducedSort_nn (text.length + 1) text sa ty bk
     (by omega)⟩

/-- Witness for C8 at concrete inputs: the text `[1,0,1]` has a single
LMS suffix and its reduced string `[0]` is within the ⌊3/2⌋ bound, and a
full run on `[0]` does not exhaust its fuel. -/
theorem c8_reduced_half_and_terminates_witness :
    ((Reduced.mk [1] [0] 0).lms_suffixes_sorted.length ≤ [1, 0, 1].length / 2 ∧
     (Reduced.mk [1] [0] 0).reduced_str.length ≤ [1, 0, 1].length / 2 ∧
     1 ≤ [1, 0, 1].length) ∧
    inducedSort ([0].length + 1) [0] [9] [Typ.L] (List.replicate 256 0) ≠
      .error .nofuelE :=
  ⟨c8_reduced_half_and_terminates.1 [1, 0, 1] [Typ.L, Typ.S, Typ.L]
      [0, 0, 0] (List.replicate 256 0)
      (List.replicate 256 0, [1, 0, 0], some ⟨[1], [0], 0⟩) ⟨[1], [0], 0⟩
      (by decide) (by decide) rfl,
   c8_reduced_half_and_terminates.2 [0] [9] [Typ.L] (List.replicate 256 0)⟩

/-!  The radix sort only rearranges its index slice (C10). -/

theorem cons_set_perm {α : Type} (x : α) :
    ∀ (t : List α) (k : Nat) (hk : k < t.length),
      (t.get ⟨k, hk⟩ :: t.set k x).Perm (x :: t) := by
  intro t
  induction t with
  | nil => intro k hk; cases hk
  | cons y s ih =>
    intro k hk
    cases k with
    | zero => exact List.Perm.swap x y s
    | succ k =>
      have hk' : k < s.length := by simpa using hk
      show (s.get ⟨k, hk'⟩ :: y :: s.set k x).Perm (x :: y :: s)
      have h1 : (s.get ⟨k, hk'⟩ :: y :: s.set k x).Perm
          (y :: s.get ⟨k, hk'⟩ :: s.set k x) :=
        List.Perm.swap y (s.get ⟨k, hk'⟩) (s.set k x)
      have h2 : (y :: s.get ⟨k, hk'⟩ :: s.set k x).Perm (y :: x :: s) :=
        (ih k hk').cons y
      have h3 : (y :: x :: s).Perm (x :: y :: s) := List.Perm.swap x y s
      exact (h1.trans h2).trans h3

theorem set_set_swap_perm {α : Type} :
    ∀ (l : List α) (i j : Nat) (hi : i < l.length) (hj : j < l.length),
      ((l.set i (l.get ⟨j, hj⟩)).set j (l.get ⟨i, hi⟩)).Perm l := by
  intro l
  induction l with
  | nil => intro i j hi hj; cases hi
  | cons x t ih =>
    intro i j hi hj
    cases i with
    | zero =>
      cases j with
      | zero => simp
      | succ k =>
        have hk : k < t.length := by simpa using hj
        simpa using cons_set_perm x t k hk
    | succ m =>
      cases j with
      | zero =>
        have hm : m < t.length := by simpa using hi
        simpa using cons_set_perm x t m hm
      | succ k =>
        have hm : m < t.length := by simpa using hi
        have hk : k < t.length := by simpa using hj
        simpa using (ih m k hm hk).cons x

theorem swapE_perm {α : Type} {l l' : List α} {i j : Nat}
    (h : swapE l i j = .ok l') : l'.Perm l := by
  unfold swapE at h
  rw [res_bind_ok] at h
  obtain ⟨a, ha, h⟩ := h
  rw [res_bind_ok] at h
  obtain ⟨b, hb, h⟩ := h
  rw [res_bind_ok] at h
  obtain ⟨l₁, hset₁, h⟩ := h
  rw [setE_ok] at hset₁
  obtain ⟨hi, hl₁⟩ := hset₁
  rw [setE_ok] at h
  obtain ⟨hj, hl'⟩ := h
  rw [getE_ok] at ha hb
  have hj' : j < l.length := by
    rw [hl₁] at hj
    simpa using hj
  have ha' : a = l.get ⟨i, hi⟩ := by
    rw [List.get?_eq_get hi] at ha
    cases ha; rfl
  have hb' : b = l.get ⟨j, hj'⟩ := by
    rw [List.get?_eq_get hj'] at hb
    cases hb; rfl
  rw [hl', hl₁, ha', hb']
  exact set_set_swap_perm l i j hi hj'

/-- The cursor loop of `move_elements_in_place` only swaps elements. -/
theorem melGo_perm {text : List Nat} :
    ∀ (fuel i : Nat) (indices buckets : List Nat)
      (out : List Nat × List Nat),
      melGo text fuel i indices buckets = .ok out →
      out.1.Perm indices := by
  intro fuel
  induction fuel with
  | zero => intro i indices buckets out h; cases h
  | succ fuel ih =>
    intro i indices buckets out h
    unfold melGo at h
    by_cases hi : i < indices.length
    · rw [if_pos hi] at h
      rw [res_bind_ok] at h
      obtain ⟨suffix, _, h⟩ := h
      rw [res_bind_ok] at h
      obtain ⟨_, _, h⟩ := h
      rw [res_bind_ok] at h
      obtain ⟨bucket, _, h⟩ := h
      rw [res_bind_ok] at h
      obtain ⟨offset, _, h⟩ := h
      by_cases h₁ : i < offset
      · rw [if_pos h₁] at h
        exact ih _ _ _ _ h
      · rw [if_neg h₁] at h
        by_cases h₂ : offset = i
        · rw [if_pos h₂] at h
          rw [res_bind_ok] at h
          obtain ⟨b₁, _, h⟩ := h
          exact ih _ _ _ _ h
        · rw [if_neg h₂] at h
          rw [res_bind_ok] at h
          obtain ⟨ind₁, hswap, h⟩ := h
          rw [res_bind_ok] at h
          obtain ⟨b₁, _, h⟩ := h
          exact (ih _ _ _ _ h).trans (swapE_perm hswap)
    · rw [if_neg hi] at h
      cases h
      exact List.Perm.refl _

/-- `move_elements_in_place` only rearranges `indices`. -/
theorem moveElementsInPlace_perm {indices text buckets : List Nat}
    {out : List Nat × List Nat}
    (h : moveElementsInPlace indices text buckets = .ok out) :
    out.1.Perm indices := by
  unfold moveElementsInPlace at h
  exact melGo_perm _ _ _ _ _ h

/-- Removing the empty suffix preserves the combined multiset of parked
and active indices. -/
theorem removeEmpty_perm {parked indices : List Nat} {e : Option Nat}
    {pi : List Nat × List Nat} (h : removeEmpty parked indices e = .ok pi) :
    (pi.1 ++ pi.2).Perm (parked ++ indices) := by
  unfold removeEmpty at h
  cases e with
  | none => cases h; exact List.Perm.refl _
  | some e =>
    rw [res_bind_ok] at h
    obtain ⟨sw, hsw, h⟩ := h
    rw [res_bind_ok] at h
    obtain ⟨_, _, h⟩ := h
    cases sw with
    | nil => cases h
    | cons hd tl =>
      cases h
      dsimp only
      have he : parked ++ [hd] ++ tl = parked ++ (hd :: tl) := by simp
      rw [he]
      exact (swapE_perm hsw).append_left parked

/-- The front loop of `suffix_sort` preserves the combined multiset of
parked and active indices. -/
theorem radixLoop_perm :
    ∀ (text parked indices buckets : List Nat) (out : RadixLoopOut),
      radixLoop parked indices text buckets = .ok out →
      (match out with
       | .done res => res.Perm (parked ++ indices)
       | .cont p ind _ _ => (p ++ ind).Perm (parked ++ indices)) := by
  intro text
  induction text with
  | nil =>
    intro parked indices buckets out h
    cases h
    exact List.Perm.refl _
  | cons c text' ih =>
    intro parked indices buckets out h
    unfold radixLoop at h
    rw [res_bind_ok] at h
    obtain ⟨scan, hscan, h⟩ := h
    obtain ⟨emptyAt, buckets₁⟩ := scan
    dsimp only at h
    rw [res_bind_ok] at h
    obtain ⟨pi, hpi, h⟩ := h
    obtain ⟨parked₁, indices₁⟩ := pi
    have hperm₁ : (parked₁ ++ indices₁).Perm (parked ++ indices) :=
      removeEmpty_perm hpi
    dsimp only at h
    rw [res_bind_ok] at h
    obtain ⟨_, _, h⟩ := h
    rw [res_bind_ok] at h
    obtain ⟨i0, _, h⟩ := h
    rw [res_bind_ok] at h
    obtain ⟨fb, _, h⟩ := h
    rw [res_bind_ok] at h
    obtain ⟨cnt, _, h⟩ := h
    by_cases hc : cnt = indices₁.length
    · rw [if_pos hc] at h
      by_cases h2 : 2 ≤ indices₁.length
      · rw [if_pos h2] at h
        rw [res_bind_ok] at h
        obtain ⟨b₂, _, h⟩ := h
        have := ih parked₁ indices₁ b₂ out h
        cases out with
        | done res => exact List.Perm.trans this hperm₁
        | cont p ind t b => exact List.Perm.trans this hperm₁
      · rw [if_neg h2] at h
        cases h
        exact hperm₁
    · rw [if_neg hc] at h
      cases h
      exact hperm₁

/-- Cutting a sub-segment out of a list and replacing it by a
permutation of itself permutes the whole list. -/
theorem segment_surgery_perm {α : Type} {indices seg' : List α}
    {a b : Nat} (hab : a ≤ b) (hb : b ≤ indices.length)
    (hperm : seg'.Perm ((indices.drop a).take (b - a))) :
    (indices.take a ++ seg' ++ indices.drop b).Perm indices := by
  have hsplit : indices = indices.take a ++
      ((indices.drop a).take (b - a) ++ indices.drop b) := by
    have h1 : (indices.drop a).drop (b - a) = indices.drop b := by
      rw [List.drop_drop]
      congr 1
      omega
    conv_lhs => rw [← List.take_append_drop a indices]
    congr 1
    rw [← h1, List.take_append_drop]
  rw [List.append_assoc]
  conv_rhs => rw [hsplit]
  exact (hperm.append_right (indices.drop b)).append_left (indices.take a)

/-- One partition step preserves the multiset of indices, provided the
recursive call does. -/
theorem segmentStep_perm
    {recur : List Nat → List Nat → Res (List Nat)} {text' : List Nat}
    (hrec : ∀ ind t out, recur ind t = .ok out → out.Perm ind) :
    ∀ (bucketEnd : Nat) (st st' : Nat × List Nat),
      segmentStep recur text' bucketEnd st = .ok st' →
      st'.2.Perm st.2 := by
  intro bucketEnd st st' h
  unfold segmentStep at h
  rw [res_bind_ok] at h
  obtain ⟨_, hle, h⟩ := h
  rw [assertR_ok] at hle
  by_cases h2 : 2 ≤ bucketEnd - st.1
  · rw [if_pos h2] at h
    rw [res_bind_ok] at h
    obtain ⟨_, hbe, h⟩ := h
    rw [assertR_ok] at hbe
    rw [res_bind_ok] at h
    obtain ⟨seg, hseg, h⟩ := h
    cases h
    exact segment_surgery_perm hle hbe (hrec _ _ _ hseg)
  · rw [if_neg h2] at h
    cases h
    exact List.Perm.refl _

/-- `suffix_sort` only rearranges `indices`. -/
theorem suffixSortF_perm :
    ∀ (fuel : Nat) (indices text : List Nat) (out : List Nat),
      suffixSortF fuel indices text = .ok out → out.Perm indices := by
  intro fuel
  induction fuel with
  | zero => intro indices text out h; cases h
  | succ fuel ih =>
    intro indices text out h
    unfold suffixSortF at h
    rw [res_bind_ok] at h
    obtain ⟨lo, hlo, h⟩ := h
    have hloperm := radixLoop_perm text [] indices
      (List.replicate RADIX_BUCKETS 0) lo hlo
    cases lo with
    | done res =>
      cases h
      simpa using hloperm
    | cont parked ind₁ text₁ buckets₁ =>
      dsimp only at h hloperm
      rw [res_bind_ok] at h
      obtain ⟨mv, hmv, h⟩ := h
      obtain ⟨ind₂, buckets₂⟩ := mv
      dsimp only at h
      rw [res_bind_ok] at h
      obtain ⟨_, _, h⟩ := h
      rw [res_bind_ok] at h
      obtain ⟨fin, hfin, h⟩ := h
      obtain ⟨lastEnd, ind₃⟩ := fin
      cases h
      have hperm₂ : ind₂.Perm ind₁ := moveElementsInPlace_perm hmv
      have hperm₃ : ind₃.Perm ind₂ :=
        foldListM_inv (fun (st : Nat × List Nat) => st.2.Perm ind₂)
          (fun x s s' hs hstep =>
            ((segmentStep_perm (fun i t o ho => ih i t o ho) x s s' hstep).trans hs))
          _ _ _ (List.Perm.refl _) hfin
      have hfinal : (parked ++ ind₃).Perm (parked ++ ind₁) :=
        (hperm₃.trans hperm₂).append_left parked
      simpa using hfinal.trans hloperm

/-- Claim C10: `radix_sort::sort`, `suffix_sort` and
`move_elements_in_place` only rearrange the index slice — on every
successful run the result is a permutation of the input indices. -/
theorem c10_radix_only_rearranges :
    (∀ (indices text buckets : List Nat) (out : List Nat × List Nat),
      moveElementsInPlace indices text buckets = .ok out →
      out.1.Perm indices) ∧
    (∀ (fuel : Nat) (indices text : List Nat) (out : List Nat),
      suffixSortF fuel indices text = .ok out → out.Perm indices) ∧
    (∀ (indices text : List Nat) (out : List Nat),
      radixSort indices text = .ok out → out.Perm indices) := by
  refine ⟨fun _ _ _ _ h => moveElementsInPlace_perm h,
    fun fuel ind t out h => suffixSortF_perm fuel ind t out h,
    fun indices text out h => ?_⟩
  unfold radixSort at h
  by_cases hl : indices.length ≤ 1
  · rw [if_pos hl] at h
    cases h
    exact List.Perm.refl _
  · rw [if_neg hl] at h
    exact suffixSortF_perm _ _ _ _ h

/-- Witness for C10 at concrete inputs. -/
theorem c10_radix_only_rearranges_witness :
    ([0, 1] : List Nat).Perm [0, 1] ∧
    ([1, 0] : List Nat).Perm [0, 1] ∧
    ([1, 2, 0] : List Nat).Perm [0, 1, 2] := by
  refine ⟨?_, ?_, ?_⟩
  · exact c10_radix_only_rearranges.1 [0, 1] [5, 6]
      (((List.replicate 256 0).set 5 1).set 6 1)
      ([0, 1], List.replicate 5 0 ++ 1 :: 2 :: List.replicate 249 2)
      (by decide)
  · exact c10_radix_only_rearranges.2.1 3 [0, 1] [6, 5] [1, 0] (by decide)
  · exact c10_radix_only_rearranges.2.2 [0, 1, 2] [1, 0, 1] [1, 2, 0]
      (by decide)

/-!  The LMS naming law (C6): bridging lemmas between the monadic
translation and its pure characterizations. -/

theorem getD_set_self {α : Type} {l : List α} {i : Nat} {v d : α}
    (h : i < l.length) : (l.set i v).getD i d = v := by
  show ((l.set i v).get? i).getD d = v
  rw [List.get?_set_eq_of_lt _ h]
  rfl

theorem getD_set_ne {α : Type} {l : List α} {i j : Nat} {v d : α}
    (h : i ≠ j) : (l.set i v).getD j d = l.getD j d := by
  show ((l.set i v).get? j).getD d = (l.get? j).getD d
  rw [List.get?_set_ne _ _ h]

theorem isLmsP_spec {types : List Typ} {i : Nat}
    (h : isLmsP types i = true) :
    ∃ k, i = k + 1 ∧ types.get? k = some .L ∧ types.get? (k + 1) = some .S := by
  cases i with
  | zero => cases h
  | succ k =>
    rw [show isLmsP types (k + 1) =
        (match types.get? k, types.get? (k + 1) with
         | some .L, some .S => true
         | _, _ => false) from rfl] at h
    refine ⟨k, rfl, ?_⟩
    cases ha : types.get? k with
    | none => rw [ha] at h; cases h
    | some a =>
      cases hb : types.get? (k + 1) with
      | none => rw [ha, hb] at h; cases a <;> cases h
      | some b =>
        rw [ha, hb] at h
        cases a <;> cases b <;>
          first | exact ⟨ha, hb⟩ | exact ⟨rfl, rfl⟩ | cases h

theorem isLmsP_bounds {types : List Typ} {i : Nat}
    (h : isLmsP types i = true) : 1 ≤ i ∧ i < types.length := by
  obtain ⟨k, hk, _, hkS⟩ := isLmsP_spec h
  subst hk
  obtain ⟨hlt, _⟩ := List.get?_eq_some.mp hkS
  exact ⟨by omega, hlt⟩

/-- Distinct LMS positions are at least two apart, so halving keeps them
distinct: the slot map `s ↦ s / 2` is injective on LMS positions. -/
theorem lms_slot_ne {types : List Typ} {a b : Nat}
    (ha : isLmsP types a = true) (hb : isLmsP types b = true)
    (hne : a ≠ b) : a / 2 ≠ b / 2 := by
  have hgap : ∀ x y : Nat, isLmsP types x = true → isLmsP types y = true →
      x < y → x + 2 ≤ y := by
    intro x y hx hy hlt
    by_contra hcl
    have hy1 : y = x + 1 := by omega
    subst hy1
    obtain ⟨k, hk, hkL, hkS⟩ := isLmsP_spec hx
    obtain ⟨m, hm, hmL, hmS⟩ := isLmsP_spec hy
    have : m = k + 1 := by omega
    subst this
    rw [hkS] at hmL
    cases hmL
  rcases Nat.lt_trichotomy a b with hlt | heq | hlt
  · have := hgap a b ha hb hlt
    omega
  · exact absurd heq hne
  · have := hgap b a hb ha hlt
    omega

theorem isLms_pure {types : List Typ} {i : Nat} (h1 : 1 ≤ i)
    (h2 : i < types.length) : isLms types i = .ok (isLmsP types i) := by
  cases i with
  | zero => omega
  | succ k =>
    have hk : k < types.length := by omega
    have ha : types.get? k = some (types.get ⟨k, hk⟩) := List.get?_eq_get hk
    have hb : types.get? (k + 1) = some (types.get ⟨k + 1, h2⟩) :=
      List.get?_eq_get h2
    unfold isLms isLmsP
    rw [assertR_pos (by omega)]
    simp only [Bind.bind, Except.bind, getE, Nat.add_sub_cancel, ha, hb]
    cases hA : types.get ⟨k, hk⟩ <;> cases hB : types.get ⟨k + 1, h2⟩ <;> rfl

theorem lmsSubstringGoF_pure {text : List Nat} {types : List Typ}
    {index : Nat} (hty : types.length = text.length) :
    ∀ (fuel i : Nat), 1 ≤ i →
      lmsSubstringGoF text types index fuel i =
        .ok (lmsSubGoPF text types index fuel i) := by
  intro fuel
  induction fuel with
  | zero => intro i _; rfl
  | succ fuel ih =>
    intro i h1
    unfold lmsSubstringGoF lmsSubGoPF
    by_cases hi : i < text.length
    · rw [if_pos hi, if_pos hi]
      rw [isLms_pure h1 (by omega)]
      by_cases hl : isLmsP types i = true
      · simp [Bind.bind, Except.bind, hl]
      · simp only [Bind.bind, Except.bind]
        rw [if_neg hl, if_neg (by simpa using hl)]
        exact ih (i + 1) (by omega)
    · rw [if_neg hi, if_neg hi]

theorem lmsSubstring_pure {text : List Nat} {types : List Typ}
    {index : Nat} (hty : types.length = text.length) (h1 : 1 ≤ index)
    (h2 : index < text.length) :
    lmsSubstring index text types = .ok (lmsSubP text types index).1 := by
  unfold lmsSubstring lmsSubP lmsSubstringGo lmsSubGoP
  rw [assertR_pos h2, assertR_pos (by omega)]
  simp only [Bind.bind, Except.bind]
  exact lmsSubstringGoF_pure hty (text.length - (index + 1)) (index + 1)
    (by omega)

theorem lmsSubGoPF_len_le {text : List Nat} {types : List Typ}
    {index : Nat} :
    ∀ (fuel i : Nat),
      (lmsSubGoPF text types index fuel i).length ≤
        text.length - index := by
  intro fuel
  induction fuel with
  | zero =>
    intro i
    show (text.drop index).length ≤ text.length - index
    simp
  | succ fuel ih =>
    intro i
    unfold lmsSubGoPF
    by_cases hi : i < text.length
    · rw [if_pos hi]
      by_cases hl : isLmsP types i = true
      · rw [if_pos hl]
        simp [List.length_take, List.length_drop]
      · rw [if_neg hl]
        exact ih (i + 1)
    · rw [if_neg hi]
      simp

theorem lmsSubGoP_len_le' {text : List Nat} {types : List Typ}
    {index i : Nat} :
    (lmsSubGoP text types index i).length ≤ text.length - index :=
  lmsSubGoPF_len_le _ _

theorem lmsSubP_len {text : List Nat} {types : List Typ} {index : Nat}
    (hty : types.length = text.length) :
    (lmsSubP text types index).2.length =
      (lmsSubP text types index).1.length := by
  unfold lmsSubP
  simp only [List.length_take, List.length_drop]
  have := @lmsSubGoP_len_le' text types index (index + 1)
  omega

theorem zip_all_eq :
    ∀ (l r : List Nat) (lt rt : List Typ),
      lt.length = l.length → rt.length = r.length → l.length = r.length →
      (((l.zip lt).zip (r.zip rt)).all fun p =>
          p.1.1 == p.2.1 && p.1.2 == p.2.2) =
        (decide (l = r) && decide (lt = rt)) := by
  intro l
  induction l with
  | nil =>
    intro r lt rt h1 h2 h3
    simp only [List.length_nil] at h1 h3
    have hr : r = [] := List.length_eq_zero.mp h3.symm
    subst hr
    simp only [List.length_nil] at h2
    have hlt : lt = [] := List.length_eq_zero.mp h1
    have hrt : rt = [] := List.length_eq_zero.mp h2
    subst hlt; subst hrt
    rfl
  | cons a l' ih =>
    intro r lt rt h1 h2 h3
    cases r with
    | nil => simp at h3
    | cons c r' =>
      cases lt with
      | nil => simp at h1
      | cons x lt' =>
        cases rt with
        | nil => simp at h2
        | cons z rt' =>
          simp only [List.zip_cons_cons, List.all_cons]
          rw [ih r' lt' rt' (by simpa using h1) (by simpa using h2)
            (by simpa using h3)]
          by_cases hac : a = c <;> by_cases hxz : x = z <;>
            simp [hac, hxz, List.cons.injEq] <;>
            simp [Bool.and_comm, Bool.and_assoc, Bool.and_left_comm]

theorem lmsSubstringsEq_pure {l r : List Nat} {lt rt : List Typ}
    (h1 : lt.length = l.length) (h2 : rt.length = r.length) :
    lmsSubstringsEq l lt r rt = .ok (decide (l = r ∧ lt = rt)) := by
  unfold lmsSubstringsEq
  rw [assertR_pos h1, assertR_pos h2]
  simp only [Bind.bind, Except.bind]
  by_cases hlen : l.length = r.length
  · rw [if_neg (by simpa using hlen)]
    rw [zip_all_eq l r lt rt h1 h2 hlen]
    congr 1
    by_cases hlr : l = r <;> by_cases hlt2 : lt = rt <;>
      simp [hlr, hlt2]
  · rw [if_pos (by simpa using hlen)]
    have : ¬ (l = r ∧ lt = rt) := fun ⟨he, _⟩ => hlen (by rw [he])
    simp [this]

/-- The naming step in closed form, when the previous state carries the
substring pair of a previous LMS position `p`: write the (kept or
incremented) name at slot `s / 2` and carry the pair of `s`. -/
theorem reduceNamingStep_char {text : List Nat} {types : List Typ}
    (hty : types.length = text.length) {s p : Nat}
    (hs1 : 1 ≤ s) (hs2 : s < text.length)
    {rest : List Nat} {ord : Nat} :
    reduceNamingStep text types s
      (rest, ord, (lmsSubP text types p).1, (lmsSubP text types p).2) =
      if s / 2 < rest.length then
        .ok (rest.set (s / 2)
              (if lmsSubP text types s = lmsSubP text types p then ord
               else ord + 1),
             (if lmsSubP text types s = lmsSubP text types p then ord
              else ord + 1),
             (lmsSubP text types s).1, (lmsSubP text types s).2)
      else .error .panicE := by
  unfold reduceNamingStep
  rw [lmsSubstring_pure hty hs1 hs2]
  have hbound : s + (lmsSubP text types s).1.length ≤ types.length := by
    have := @lmsSubGoP_len_le' text types s (s + 1)
    show s + (lmsSubGoP text types s (s + 1)).length ≤ types.length
    omega
  have hsub : (types.drop s).take (lmsSubP text types s).1.length =
      (lmsSubP text types s).2 := rfl
  have heq : lmsSubstringsEq (lmsSubP text types p).1 (lmsSubP text types p).2
      (lmsSubP text types s).1 (lmsSubP text types s).2 =
      .ok (decide (lmsSubP text types s = lmsSubP text types p)) := by
    rw [lmsSubstringsEq_pure (lmsSubP_len hty) (lmsSubP_len hty)]
    congr 1
    have hpair : ((lmsSubP text types p).1 = (lmsSubP text types s).1 ∧
        (lmsSubP text types p).2 = (lmsSubP text types s).2) ↔
        lmsSubP text types s = lmsSubP text types p := by
      rw [Prod.ext_iff]
      constructor
      · intro ⟨u, v⟩; exact ⟨u.symm, v.symm⟩
      · intro ⟨u, v⟩; exact ⟨u.symm, v.symm⟩
    simp only [decide_eq_decide]
    exact hpair
  simp only [Bind.bind, Except.bind, assertR_pos hbound, hsub, heq]
  by_cases hcond : lmsSubP text types s = lmsSubP text types p
  · simp only [hcond, decide_eq_true_eq, if_pos, decide_True]
    unfold setE
    by_cases hslot : s / 2 < rest.length
    · simp [hslot]
    · simp [hslot]
  · simp only [decide_eq_false hcond]
    rw [if_neg (by simp)]
    unfold setE
    by_cases hslot : s / 2 < rest.length
    · simp [hslot, if_neg hcond]
    · simp [hslot]

theorem namesGo_cons (text : List Nat) (types : List Typ)
    (prev : List Nat × List Typ) (ord s : Nat) (tail' : List Nat) :
    namesGo text types prev ord (s :: tail') =
      (if lmsSubP text types s = prev then ord else ord + 1) ::
        namesGo text types (lmsSubP text types s)
          (if lmsSubP text types s = prev then ord else ord + 1) tail' := rfl

/-- Invariant run of the naming loop: slots not owned by the processed
suffixes keep their values, and each processed suffix's slot carries its
entry of the pure name sequence. -/
theorem reduceNamingGo_names {text : List Nat} {types : List Typ}
    (hty : types.length = text.length) :
    ∀ (tail : List Nat) (p ord : Nat) (rest : List Nat)
      (st' : List Nat × Nat × List Nat × List Typ),
      (∀ s ∈ tail, isLmsP types s = true) →
      tail.Pairwise (fun a b => a / 2 ≠ b / 2) →
      foldListM (reduceNamingStep text types) tail
        (rest, ord, (lmsSubP text types p).1, (lmsSubP text types p).2) =
        .ok st' →
      (∀ slot, (∀ s ∈ tail, slot ≠ s / 2) →
        st'.1.getD slot 0 = rest.getD slot 0) ∧
      (∀ k, k < tail.length →
        st'.1.getD (tail.getD k 0 / 2) 0 =
          (namesGo text types (lmsSubP text types p) ord tail).getD k 0) := by
  intro tail
  induction tail with
  | nil =>
    intro p ord rest st' _ _ h
    cases h
    exact ⟨fun slot _ => rfl, fun k hk => by cases hk⟩
  | cons s tail' ih =>
    intro p ord rest st' hmem hpair h
    have hsb := isLmsP_bounds (hmem s (List.mem_cons_self s tail'))
    have hs1 : 1 ≤ s := hsb.1
    have hs2 : s < text.length := by omega
    rw [show foldListM (reduceNamingStep text types) (s :: tail')
        (rest, ord, (lmsSubP text types p).1, (lmsSubP text types p).2) =
        (reduceNamingStep text types s
          (rest, ord, (lmsSubP text types p).1, (lmsSubP text types p).2)).bind
          (foldListM (reduceNamingStep text types) tail') from rfl] at h
    rw [reduceNamingStep_char hty hs1 hs2] at h
    by_cases hslot : s / 2 < rest.length
    · rw [if_pos hslot] at h
      rw [show ((.ok (rest.set (s / 2)
            (if lmsSubP text types s = lmsSubP text types p then ord
             else ord + 1),
            (if lmsSubP text types s = lmsSubP text types p then ord
             else ord + 1),
            (lmsSubP text types s).1, (lmsSubP text types s).2) : Res _).bind
            (foldListM (reduceNamingStep text types) tail')) =
          foldListM (reduceNamingStep text types) tail'
            (rest.set (s / 2)
              (if lmsSubP text types s = lmsSubP text types p then ord
               else ord + 1),
             (if lmsSubP text types s = lmsSubP text types p then ord
              else ord + 1),
             (lmsSubP text types s).1, (lmsSubP text types s).2) from rfl] at h
      have hmem' : ∀ x ∈ tail', isLmsP types x = true :=
        fun x hx => hmem x (List.mem_cons_of_mem s hx)
      have hpair' : tail'.Pairwise (fun a b => a / 2 ≠ b / 2) :=
        List.Pairwise.of_cons hpair
      have hhead : ∀ b ∈ tail', s / 2 ≠ b / 2 :=
        fun b hb => List.rel_of_pairwise_cons hpair hb
      obtain ⟨iha, ihb⟩ := ih s _ _ st' hmem' hpair' h
      constructor
      · intro slot hslot'
        have h1 : slot ≠ s / 2 := hslot' s (List.mem_cons_self s tail')
        have h2 : ∀ x ∈ tail', slot ≠ x / 2 :=
          fun x hx => hslot' x (List.mem_cons_of_mem s hx)
        rw [iha slot h2, getD_set_ne (Ne.symm h1)]
      · intro k hk
        cases k with
        | zero =>
          have hso : st'.1.getD (s / 2) 0 =
              (rest.set (s / 2)
                (if lmsSubP text types s = lmsSubP text types p then ord
                 else ord + 1)).getD (s / 2) 0 :=
            iha (s / 2) hhead
          rw [show (s :: tail').getD 0 0 = s from rfl, hso,
            getD_set_self hslot, namesGo_cons]
          rfl
        | succ k =>
          have hk' : k < tail'.length := by simpa using hk
          rw [show (s :: tail').getD (k + 1) 0 = tail'.getD k 0 from rfl]
          rw [ihb k hk', namesGo_cons]
          rfl
    · rw [if_neg hslot] at h
      cases h

/-- After `reduceNaming`, the slot of the `k`-th sorted LMS suffix holds
the `k`-th entry of the pure name sequence. -/
theorem reduceNaming_names {text : List Nat} {types : List Typ}
    (hty : types.length = text.length) {lms rest0 rest : List Nat}
    {ord : Nat}
    (hmem : ∀ s ∈ lms, isLmsP types s = true)
    (hpair : lms.Pairwise (fun a b => a / 2 ≠ b / 2))
    (hrun : reduceNaming text types lms rest0 = .ok (rest, ord)) :
    ∀ k, k < lms.length →
      rest.getD (lms.getD k 0 / 2) 0 =
        (namesP text types lms).getD k 0 := by
  cases lms with
  | nil => cases hrun
  | cons first tail =>
    have hfb := isLmsP_bounds (hmem first (List.mem_cons_self first tail))
    have hf1 : 1 ≤ first := hfb.1
    have hf2 : first < text.length := by omega
    unfold reduceNaming at hrun
    rw [res_bind_ok] at hrun
    obtain ⟨rest₁, hset₁, hrun⟩ := hrun
    rw [setE_ok] at hset₁
    obtain ⟨hslot₁, hrest₁⟩ := hset₁
    rw [lmsSubstring_pure hty hf1 hf2, res_bind_ok] at hrun
    obtain ⟨fs, hfs, hrun⟩ := hrun
    have hfs' : fs = (lmsSubP text types first).1 := by cases hfs; rfl
    subst hfs'
    rw [res_bind_ok] at hrun
    obtain ⟨_, _, hrun⟩ := hrun
    rw [res_bind_ok] at hrun
    obtain ⟨st, hfold, hrun⟩ := hrun
    cases hrun
    have hmem' : ∀ x ∈ tail, isLmsP types x = true :=
      fun x hx => hmem x (List.mem_cons_of_mem first hx)
    have hpair' : tail.Pairwise (fun a b => a / 2 ≠ b / 2) :=
      List.Pairwise.of_cons hpair
    have hhead : ∀ b ∈ tail, first / 2 ≠ b / 2 :=
      fun b hb => List.rel_of_pairwise_cons hpair hb
    have hsub2 : (types.drop first).take (lmsSubP text types first).1.length =
        (lmsSubP text types first).2 := rfl
    rw [hsub2] at hfold
    obtain ⟨iha, ihb⟩ :=
      reduceNamingGo_names hty tail first 0 rest₁ st hmem' hpair' hfold
    intro k hk
    cases k with
    | zero =>
      rw [show (first :: tail).getD 0 0 = first from rfl]
      rw [iha (first / 2) hhead, hrest₁, getD_set_self hslot₁]
      rfl
    | succ k =>
      have hk' : k < tail.length := by simpa using hk
      rw [show (first :: tail).getD (k + 1) 0 = tail.getD k 0 from rfl]
      rw [ihb k hk']
      rfl

/-- Successive entries of the pure name sequence differ by one exactly
when the substring pairs differ. -/
theorem namesGo_succ {text : List Nat} {types : List Typ} :
    ∀ (t : List Nat) (prev : List Nat × List Typ) (ord k : Nat),
      k + 1 < t.length →
      (namesGo text types prev ord t).getD (k + 1) 0 =
        (namesGo text types prev ord t).getD k 0 +
          (if lmsSubP text types (t.getD (k + 1) 0) =
              lmsSubP text types (t.getD k 0) then 0 else 1) := by
  intro t
  induction t with
  | nil => intro prev ord k hk; simp at hk
  | cons s t' ih =>
    intro prev ord k hk
    cases k with
    | zero =>
      cases t' with
      | nil => simp at hk
      | cons s' t'' =>
        rw [namesGo_cons, namesGo_cons]
        by_cases hc : lmsSubP text types s' = lmsSubP text types s <;>
          simp [hc]
    | succ k =>
      have hk' : k + 1 < t'.length := by simpa using hk
      rw [namesGo_cons]
      have := ih (lmsSubP text types s)
        (if lmsSubP text types s = prev then ord else ord + 1) k hk'
      simpa using this

theorem namesP_cons (text : List Nat) (types : List Typ) (first : Nat)
    (tail : List Nat) :
    namesP text types (first :: tail) =
      0 :: namesGo text types (lmsSubP text types first) 0 tail := rfl

theorem namesP_succ {text : List Nat} {types : List Typ}
    {lms : List Nat} {k : Nat} (hk : k + 1 < lms.length) :
    (namesP text types lms).getD (k + 1) 0 =
      (namesP text types lms).getD k 0 +
        (if lmsSubP text types (lms.getD (k + 1) 0) =
            lmsSubP text types (lms.getD k 0) then 0 else 1) := by
  cases lms with
  | nil => simp at hk
  | cons first tail =>
    rw [namesP_cons]
    cases k with
    | zero =>
      cases tail with
      | nil => simp at hk
      | cons s t' =>
        rw [namesGo_cons]
        by_cases hc : lmsSubP text types s = lmsSubP text types first <;>
          simp [hc, List.getD_cons_zero, List.getD_cons_succ]
    | succ k =>
      have hk' : k + 1 < tail.length := by simpa using hk
      have := @namesGo_succ text types tail
        (lmsSubP text types first) 0 k hk'
      simp only [List.getD_cons_succ]
      rw [this]

theorem namesP_mono_add {text : List Nat} {types : List Typ}
    {lms : List Nat} :
    ∀ (d a : Nat), a + d < lms.length →
      (namesP text types lms).getD a 0 ≤
        (namesP text types lms).getD (a + d) 0 := by
  intro d
  induction d with
  | zero => intro a _; exact Nat.le_refl _
  | succ d ih =>
    intro a ha
    have h1 := ih a (by omega)
    have h2 := @namesP_succ text types lms (a + d)
      (by omega : a + d + 1 < lms.length)
    rw [show a + (d + 1) = a + d + 1 by omega, h2]
    split <;> omega

/-- Two entries of the name sequence are equal exactly when all
substring pairs between them agree with their successors. -/
theorem namesP_eq_iff {text : List Nat} {types : List Typ}
    {lms : List Nat} :
    ∀ (d a : Nat), a + d < lms.length →
      ((namesP text types lms).getD a 0 =
          (namesP text types lms).getD (a + d) 0 ↔
        ∀ c, a ≤ c → c < a + d →
          lmsSubP text types (lms.getD (c + 1) 0) =
            lmsSubP text types (lms.getD c 0)) := by
  intro d
  induction d with
  | zero =>
    intro a _
    constructor
    · intro _ c h1 h2; omega
    · intro _; rfl
  | succ d ih =>
    intro a ha
    have hsucc := @namesP_succ text types lms (a + d)
      (by omega : a + d + 1 < lms.length)
    have hmono := @namesP_mono_add text types lms d a (by omega)
    rw [show a + (d + 1) = a + d + 1 by omega, hsucc]
    by_cases hc : lmsSubP text types (lms.getD (a + d + 1) 0) =
        lmsSubP text types (lms.getD (a + d) 0)
    · rw [if_pos hc, Nat.add_zero]
      rw [ih a (by omega)]
      constructor
      · intro hall c h1 h2
        by_cases hcd : c = a + d
        · subst hcd; exact hc
        · exact hall c h1 (by omega)
      · intro hall c h1 h2
        exact hall c h1 (by omega)
    · rw [if_neg hc]
      constructor
      · intro habs
        omega
      · intro hall
        exact absurd (hall (a + d) (by omega) (by omega)) hc

theorem lmsSubP_chain {text : List Nat} {types : List Typ}
    {lms : List Nat} :
    ∀ (d a : Nat), a + d < lms.length →
      (∀ c, a ≤ c → c < a + d →
        lmsSubP text types (lms.getD (c + 1) 0) =
          lmsSubP text types (lms.getD c 0)) →
      lmsSubP text types (lms.getD (a + d) 0) =
        lmsSubP text types (lms.getD a 0) := by
  intro d
  induction d with
  | zero => intro a _ _; rfl
  | succ d ih =>
    intro a ha hall
    have h1 := hall (a + d) (by omega) (by omega)
    have h2 := ih a (by omega) (fun c hc1 hc2 => hall c hc1 (by omega))
    rw [show a + (d + 1) = a + d + 1 by omega, h1, h2]

/-- Claim C6: under the reducer's precondition — the slice holds LMS
positions, pairwise distinct, in an order in which positions with equal
LMS substrings are contiguous (the consequence of being sorted by LMS
substring) — the naming loop of `reduce` assigns two positions the same
name if and only if their LMS substrings are byte-wise and type-wise
equal. -/
theorem c6_same_name_iff_equal_substrings
    (text : List Nat) (types : List Typ) (lms rest0 rest : List Nat)
    (ord : Nat)
    (hty : types.length = text.length)
    (hmem : ∀ s ∈ lms, isLmsP types s = true)
    (hnodup : lms.Nodup)
    (hsorted : ∀ a b c : Nat, a ≤ b → b ≤ c → c < lms.length →
      lmsSubP text types (lms.getD a 0) = lmsSubP text types (lms.getD c 0) →
      lmsSubP text types (lms.getD b 0) = lmsSubP text types (lms.getD a 0))
    (hrun : reduceNaming text types lms rest0 = .ok (rest, ord)) :
    ∀ i j, i < lms.length → j < lms.length →
      (rest.getD (lms.getD i 0 / 2) 0 = rest.getD (lms.getD j 0 / 2) 0 ↔
        lmsSubP text types (lms.getD i 0) =
          lmsSubP text types (lms.getD j 0)) := by
  have hpair : lms.Pairwise (fun a b => a / 2 ≠ b / 2) :=
    List.Pairwise.imp_of_mem
      (fun {a b} haa hbb hne => lms_slot_ne (hmem a haa) (hmem b hbb) hne)
      hnodup
  have hlook := reduceNaming_names hty hmem hpair hrun
  have aux : ∀ i j, i ≤ j → j < lms.length →
      (rest.getD (lms.getD i 0 / 2) 0 = rest.getD (lms.getD j 0 / 2) 0 ↔
        lmsSubP text types (lms.getD i 0) =
          lmsSubP text types (lms.getD j 0)) := by
    intro i j hij hj
    rw [hlook i (by omega), hlook j hj]
    have hd : j = i + (j - i) := by omega
    rw [hd]
    rw [namesP_eq_iff (j - i) i (by omega)]
    constructor
    · intro hall
      exact (lmsSubP_chain (j - i) i (by omega) hall).symm
    · intro hsame c hc1 hc2
      have hcj : lmsSubP text types (lms.getD c 0) =
          lmsSubP text types (lms.getD i 0) :=
        hsorted i c (i + (j - i)) hc1 (by omega) (by omega) hsame
      have hcj1 : lmsSubP text types (lms.getD (c + 1) 0) =
          lmsSubP text types (lms.getD i 0) :=
        hsorted i (c + 1) (i + (j - i)) (by omega) (by omega) (by omega) hsame
      rw [hcj, hcj1]
  intro i j hi hj
  rcases Nat.le_total i j with hij | hji
  · exact aux i j hij hj
  · have h := aux j i hji hi
    constructor
    · intro he
      exact (h.mp he.symm).symm
    · intro he
      exact (h.mpr he.symm).symm

/-- Witness for C6: on the text `[2,1,2,1,2]` (types `LSLSL`, sorted
LMS suffixes `[3, 1]` with distinct substrings) the two assigned names
differ, matching the substring comparison. -/
theorem c6_same_name_iff_equal_substrings_witness :
    (([1, 0] : List Nat).getD (([3, 1] : List Nat).getD 0 0 / 2) 0 =
        ([1, 0] : List Nat).getD (([3, 1] : List Nat).getD 1 0 / 2) 0 ↔
      lmsSubP [2, 1, 2, 1, 2] [Typ.L, Typ.S, Typ.L, Typ.S, Typ.L]
          (([3, 1] : List Nat).getD 0 0) =
        lmsSubP [2, 1, 2, 1, 2] [Typ.L, Typ.S, Typ.L, Typ.S, Typ.L]
          (([3, 1] : List Nat).getD 1 0)) :=
  c6_same_name_iff_equal_substrings [2, 1, 2, 1, 2]
    [Typ.L, Typ.S, Typ.L, Typ.S, Typ.L] [3, 1] (List.replicate 2 NIL)
    [1, 0] 1 (by decide) (by decide) (by decide)
    (by
      intro a b c h1 h2 h3 hsub
      simp only [List.length_cons, List.length_nil] at h3
      have ha : a = 0 ∨ a = 1 := by omega
      have hb : b = 0 ∨ b = 1 := by omega
      have hc : c = 0 ∨ c = 1 := by omega
      rcases ha with ha | ha <;> rcases hb with hb | hb <;>
        rcases hc with hc | hc <;> subst ha <;> subst hb <;> subst hc <;>
        first
          | rfl
          | omega
          | exact absurd hsub (by decide))
    (by decide) 0 1 (by decide) (by decide)

/-- Witness for C9 at a concrete input. -/
theorem c9_buckets_restored_witness :
    (List.replicate 256 (0 : Nat)).length = (List.replicate 256 (0 : Nat)).length ∧
    ∀ x ∈ (List.replicate 256 (0 : Nat)), x = 0 := by
  have h : sort [0] [5] [Typ.S] (List.replicate 256 0) =
      .ok ([0], [Typ.L], List.replicate 256 0) := by decide
  exact c9_buckets_restored [0] [5] [Typ.S] (List.replicate 256 0)
    ([0], [Typ.L], List.replicate 256 0) h

